import Mathlib

/-
  Verification development for the sdlanggo SDLang parser.

  The Go sources (ast.go and the SAX tokenizer) are embedded shallowly:
  * Go strings are modelled as `List Nat` of byte values (all inputs of
    interest are ASCII, and the tokenizer works byte-wise via `peek`).
  * Go `int`/`int64` arithmetic that can overflow is modelled with an
    explicit wrap at 2^64 (`wrap64`, `i64mul`, `i64add`).
  * `time.Time` is modelled by `GoTime` (absolute seconds + nanoseconds,
    UTC), with `timeDate` mirroring `time.Date`'s normalisation and the
    `Year`/`Month`/`Day` accessors implemented with the standard civil
    calendar conversion; `time.Duration` is an `Int` of nanoseconds.
  * Loops in the Go code are translated as fuel-indexed structurally
    recursive functions; wrappers pass `Input.length + 1` fuel, and spec
    lemmas below show the fuel bound is never reached, so the functions
    satisfy exactly the loop equations of the source.
  * Fallible functions return `Except GoError _`; a Go runtime panic
    (out-of-range index on the parse stack) is modelled by the explicit
    `AstResult.panic` result.
-/

abbrev GoStr := String
abbrev GoFloat := Float

/-- Byte values of an ASCII Lean string, modelling a Go `string`. -/
def bytes (s : String) : List Nat := s.data.map Char.toNat

/-- Go slice expression `l[a:b]` (total model; in-range at every use site
reached by the claims). -/
def listSlice (l : List Nat) (a b : Nat) : List Nat := (l.take b).drop a

/-- Wrap an integer into the signed 64-bit range, as Go arithmetic does. -/
def wrap64 (x : Int) : Int := (x + 2 ^ 63).emod (2 ^ 64) - 2 ^ 63

/-- Go `int64` multiplication. -/
def i64mul (a b : Int) : Int := wrap64 (a * b)

/-- Go `int64` addition. -/
def i64add (a b : Int) : Int := wrap64 (a + b)

/-- Digits of a byte list interpreted in base 10; `none` when empty or any
byte is not an ASCII digit. -/
def natOfDigits : List Nat → Option Nat
  | [] => some 0
  | c :: r =>
    if 48 ≤ c ∧ c ≤ 57 then
      match natOfDigits r with
      | some n => some (n + (c - 48) * 10 ^ r.length)
      | none => none
    else none

/-- Go `strconv.Atoi` (= `strconv.ParseInt(s, 10, 0)` on a 64-bit platform):
first component is the returned value (clamped to int64 on range error,
0 on syntax error), second component is whether err == nil. -/
def goAtoiPair (s : List Nat) : Int × Bool :=
  match s with
  | [] => (0, false)
  | c :: r =>
    let neg := c = 45
    let ds := if c = 45 ∨ c = 43 then r else s
    if ds = [] then (0, false)
    else
      match natOfDigits ds with
      | none => (0, false)
      | some n =>
        if neg then
          if (n : Int) > 2 ^ 63 then (-(2 ^ 63), false) else (-(n : Int), true)
        else
          if (n : Int) > 2 ^ 63 - 1 then (2 ^ 63 - 1, false) else ((n : Int), true)

/-- Approximate model of `strconv.ParseFloat(s, 64)` (sign, integer part,
fraction). Exact IEEE rounding is not reproduced; no claim in this
development depends on a Float payload. -/
def goParseFloat (s : List Nat) : GoFloat :=
  let neg := s.headD 0 = 45
  let ds := if neg ∨ s.headD 0 = 43 then s.tail else s
  let intPart := ds.takeWhile (fun c => 48 ≤ c ∧ c ≤ 57)
  let rest := ds.dropWhile (fun c => 48 ≤ c ∧ c ≤ 57)
  let fracPart := if rest.headD 0 = 46 then rest.tail.takeWhile (fun c => 48 ≤ c ∧ c ≤ 57) else []
  let ip := (natOfDigits intPart).getD 0
  let fp := (natOfDigits fracPart).getD 0
  let mag := Float.ofNat ip + Float.ofNat fp / Float.ofNat (10 ^ fracPart.length)
  if neg then -mag else mag

/-! ## Calendar model for Go `time.Time` (UTC) -/

/-- Days since the Unix epoch of a civil date (month already normalised to
1..12); the standard era-based algorithm, matching Go's calendar. -/
def daysFromCivil (y m d : Int) : Int :=
  let y := if m ≤ 2 then y - 1 else y
  let era := Int.fdiv y 400
  let yoe := y - era * 400
  let mp := if m > 2 then m - 3 else m + 9
  let doy := Int.fdiv (153 * mp + 2) 5 + d - 1
  let doe := yoe * 365 + Int.fdiv yoe 4 - Int.fdiv yoe 100 + doy
  era * 146097 + doe - 719468

/-- Civil date (year, month, day) of a number of days since the Unix epoch. -/
def civilFromDays (z : Int) : Int × Int × Int :=
  let z := z + 719468
  let era := Int.fdiv z 146097
  let doe := z - era * 146097
  let yoe := Int.fdiv (doe - Int.fdiv doe 1460 + Int.fdiv doe 36524 - Int.fdiv doe 146096) 365
  let y := yoe + era * 400
  let doy := doe - (365 * yoe + Int.fdiv yoe 4 - Int.fdiv yoe 100)
  let mp := Int.fdiv (5 * doy + 2) 153
  let d := doy - Int.fdiv (153 * mp + 2) 5 + 1
  let m := if mp < 10 then mp + 3 else mp - 9
  (if m ≤ 2 then y + 1 else y, m, d)

/-- Model of Go `time.Time` in UTC: seconds since the Unix epoch plus a
nanosecond part in [0, 1e9). -/
structure GoTime where
  sec : Int
  nsec : Int
deriving DecidableEq, Repr

/-- Model of `time.Date(year, month, day, hour, min, sec, nsec, time.UTC)`,
including Go's normalisation of out-of-range fields. -/
def timeDate (year month day hour min sec nsec : Int) : GoTime :=
  let sec := sec + Int.fdiv nsec 1000000000
  let nsec := Int.fmod nsec 1000000000
  let m := month - 1
  let year := year + Int.fdiv m 12
  let month := Int.fmod m 12 + 1
  let days := daysFromCivil year month 1 + (day - 1)
  { sec := days * 86400 + hour * 3600 + min * 60 + sec, nsec := nsec }

/-- `time.Time.Year()`. -/
def GoTime.Year (t : GoTime) : Int := (civilFromDays (Int.fdiv t.sec 86400)).1

/-- `time.Time.Month()` (as its integer value). -/
def GoTime.Month (t : GoTime) : Int := (civilFromDays (Int.fdiv t.sec 86400)).2.1

/-- `time.Time.Day()`. -/
def GoTime.Day (t : GoTime) : Int := (civilFromDays (Int.fdiv t.sec 86400)).2.2

/-- The zero `time.Time` (January 1, year 1, 00:00:00 UTC). -/
def goZeroTime : GoTime := timeDate 1 1 1 0 0 0 0

/-! ## Tokenizer state (`SaxParser`) -/

/-- The `saxType` enumeration of token kinds. -/
inductive SaxType where
  | failsafe
  | tagName
  | attributeName
  | string_
  | character
  | integer
  | long
  | float
  | double
  | decimal
  | boolean
  | date
  | dateTime
  | timeSpan
  | binary
  | null
  | newLine
  | eof
  | openTag
  | closeTag
deriving DecidableEq, Repr

/-- The `SaxParser` struct: the input, a cursor, and the fields describing
the current token. -/
structure SaxParser where
  Input : List Nat
  FileName : List Nat := []
  cursor : Nat := 0
  t : SaxType := .failsafe
  text : List Nat := []
  addText : List Nat := []
  dateTime : GoTime := goZeroTime
  timeSpan : Int := 0
  boolean : Bool := false
deriving DecidableEq, Repr

/-- Go `peek`: byte at `cursor + offset`, with `0xff` as end sentinel. -/
def SaxParser.peek (s : SaxParser) (offset : Nat) : Nat :=
  if s.cursor + offset ≥ s.Input.length then 255 else s.Input.getD (s.cursor + offset) 0

/-- Go `advance`. -/
def SaxParser.advance (s : SaxParser) (amount : Nat) : SaxParser :=
  { s with cursor := s.cursor + amount }

/-- Go `eof`. -/
def SaxParser.eof (s : SaxParser) : Bool := s.cursor ≥ s.Input.length

/-- Remaining input length, the termination measure of all scanning loops. -/
def lenRem (s : SaxParser) : Nat := s.Input.length - s.cursor

def isIdentifierStart (ch : Nat) : Bool :=
  (97 ≤ ch ∧ ch ≤ 122) ∨ (65 ≤ ch ∧ ch ≤ 90) ∨ ch = 95

def isDigit (ch : Nat) : Bool := 48 ≤ ch ∧ ch ≤ 57

def isIdentifierContinue (ch : Nat) : Bool :=
  (97 ≤ ch ∧ ch ≤ 122) ∨ (65 ≤ ch ∧ ch ≤ 90) ∨ ch = 95 ∨
    (48 ≤ ch ∧ ch ≤ 57) ∨ ch = 45 ∨ ch = 46 ∨ ch = 36

/-- Errors carry the message and the byte position handed to `getLine`;
rendering (the `decorator` package) is a presentation concern and is not
modelled. -/
structure GoError where
  pos : Nat
  msg : GoStr
deriving DecidableEq, Repr

/-- Token-kind query methods (`IsTagName`, `IsEof`, ...). -/
def SaxParser.IsTagName (s : SaxParser) : Bool := s.t = .tagName
def SaxParser.IsAttributeName (s : SaxParser) : Bool := s.t = .attributeName
def SaxParser.IsString (s : SaxParser) : Bool := s.t = .string_
def SaxParser.IsChar (s : SaxParser) : Bool := s.t = .character
def SaxParser.IsInteger (s : SaxParser) : Bool := s.t = .integer
def SaxParser.IsLong (s : SaxParser) : Bool := s.t = .long
def SaxParser.IsFloat (s : SaxParser) : Bool := s.t = .float
def SaxParser.IsDouble (s : SaxParser) : Bool := s.t = .double
def SaxParser.IsDecimal (s : SaxParser) : Bool := s.t = .decimal
def SaxParser.IsBool (s : SaxParser) : Bool := s.t = .boolean
def SaxParser.IsDate (s : SaxParser) : Bool := s.t = .date
def SaxParser.IsDateTime (s : SaxParser) : Bool := s.t = .dateTime
def SaxParser.IsTimeSpan (s : SaxParser) : Bool := s.t = .timeSpan
def SaxParser.IsBinary (s : SaxParser) : Bool := s.t = .binary
def SaxParser.IsNull (s : SaxParser) : Bool := s.t = .null
def SaxParser.IsEof (s : SaxParser) : Bool := s.t = .eof
def SaxParser.IsNewLine (s : SaxParser) : Bool := s.t = .newLine
def SaxParser.IsOpenTag (s : SaxParser) : Bool := s.t = .openTag
def SaxParser.IsCloseTag (s : SaxParser) : Bool := s.t = .closeTag

/-! ## Tokenizer scanning loops (fuel-indexed; the wrappers pass
`Input.length + 1` fuel and the spec lemmas below show the 0-fuel case is
never reached, so each function satisfies exactly the loop equation of the
Go source). -/

/-- Loop of Go `eatWhite`: skip spaces and tabs. -/
def eatWhiteF : Nat → SaxParser → SaxParser
  | 0, s => s
  | fuel + 1, s =>
    if ¬ s.eof ∧ (s.peek 0 = 32 ∨ s.peek 0 = 9) then eatWhiteF fuel (s.advance 1) else s

/-- Go `eatWhite`. -/
def SaxParser.eatWhite (s : SaxParser) : SaxParser := eatWhiteF (s.Input.length + 1) s

/-- Comment-skipping loop in `Next`: advance to the next newline or eof. -/
def skipToEolF : Nat → SaxParser → SaxParser
  | 0, s => s
  | fuel + 1, s =>
    if ¬ s.eof ∧ s.peek 0 ≠ 10 then skipToEolF fuel (s.advance 1) else s

def SaxParser.skipToEol (s : SaxParser) : SaxParser := skipToEolF (s.Input.length + 1) s

/-- Identifier-scanning loop in `nextIdentifier`. -/
def scanIdentF : Nat → SaxParser → SaxParser
  | 0, s => s
  | fuel + 1, s =>
    if isIdentifierContinue (s.peek 0) then scanIdentF fuel (s.advance 1) else s

def SaxParser.scanIdent (s : SaxParser) : SaxParser := scanIdentF (s.Input.length + 1) s

/-- Body of Go `nextIdentifier` after the tag/attribute classification:
scan the word, check the keyword spellings, and handle a namespace colon. -/
def identTail (s0 : SaxParser) : SaxParser :=
  let start := s0.cursor
  let s := s0.scanIdent
  let word := listSlice s.Input start s.cursor
  if word = bytes "true" ∨ word = bytes "on" then
    { s with t := .boolean, text := bytes "true", boolean := true }
  else if word = bytes "false" ∨ word = bytes "off" then
    { s with t := .boolean, text := bytes "false", boolean := false }
  else if word = bytes "null" then
    { s with t := .null, text := bytes "null" }
  else if s.peek 0 ≠ 58 then
    { s with text := word, addText := [] }
  else
    let s2 := ({ s with addText := word }).advance 1
    let start2 := s2.cursor
    let s3 := s2.scanIdent
    { s3 with text := listSlice s3.Input start2 s3.cursor }

/-- Go `nextIdentifier` (it never returns a non-nil error). -/
def SaxParser.nextIdentifier (s0 : SaxParser) : SaxParser :=
  if s0.t = .newLine ∨ s0.t = .failsafe then identTail { s0 with t := .tagName }
  else identTail { s0 with t := .attributeName }

/-- Loop of `nextDoubleQuotedString`; the accumulated `text` and the
current `start` mirror the Go locals, `debugStart` the position of the
opening quote (for the unterminated-string error). -/
def dqLoopF : Nat → SaxParser → List Nat → Nat → Nat → Except GoError SaxParser
  | 0, _, _, _, debugStart => .error ⟨debugStart, "Unterminated string"⟩
  | fuel + 1, s, text, start, debugStart =>
    if ¬ s.eof then
      if s.peek 0 = 92 then
        let text := text ++ listSlice s.Input start s.cursor
        let s := s.advance 1
        let ch := s.peek 0
        if ch = 110 then dqLoopF fuel (s.advance 1) (text ++ [10]) (s.advance 1).cursor debugStart
        else if ch = 116 then dqLoopF fuel (s.advance 1) (text ++ [9]) (s.advance 1).cursor debugStart
        else if ch = 114 then dqLoopF fuel (s.advance 1) (text ++ [13]) (s.advance 1).cursor debugStart
        else if ch = 34 then dqLoopF fuel (s.advance 1) (text ++ [34]) (s.advance 1).cursor debugStart
        else if ch = 92 then dqLoopF fuel (s.advance 1) (text ++ [92]) (s.advance 1).cursor debugStart
        else if ch = 10 then
          let s := (s.advance 1).eatWhite
          dqLoopF fuel s text s.cursor debugStart
        else .error ⟨s.cursor, "Invalid escape character"⟩
      else if s.peek 0 = 34 then
        let text := if text = [] then listSlice s.Input start s.cursor
                    else text ++ listSlice s.Input start s.cursor
        .ok { s.advance 1 with text := text }
      else if s.peek 0 = 10 then .error ⟨debugStart, "Unterminated string"⟩
      else dqLoopF fuel (s.advance 1) text start debugStart
    else .error ⟨debugStart, "Unterminated string"⟩

/-- Go `nextDoubleQuotedString`. -/
def SaxParser.nextDoubleQuotedString (s0 : SaxParser) : Except GoError SaxParser :=
  let debugStart := s0.cursor
  let s := { s0.advance 1 with t := .string_ }
  dqLoopF (s.Input.length + 1) s [] s.cursor debugStart

/-- Loop of `nextBacktickString`. -/
def btLoopF : Nat → SaxParser → Nat → Nat → Except GoError SaxParser
  | 0, _, _, debugStart => .error ⟨debugStart, "Unterminated string"⟩
  | fuel + 1, s, start, debugStart =>
    if ¬ s.eof then
      if s.peek 0 = 96 then
        .ok { s.advance 1 with text := listSlice s.Input start s.cursor }
      else if s.peek 0 = 13 then
        .error ⟨s.cursor, "Backtick strings do not support carriage-return characters"⟩
      else btLoopF fuel (s.advance 1) start debugStart
    else .error ⟨debugStart, "Unterminated string"⟩

/-- Go `nextBacktickString`. -/
def SaxParser.nextBacktickString (s0 : SaxParser) : Except GoError SaxParser :=
  let debugStart := s0.cursor
  let s := { s0.advance 1 with t := .string_ }
  btLoopF (s.Input.length + 1) s s.cursor debugStart

/-- Loop of `nextBinary`: collect the non-whitespace bytes between the
brackets. -/
def binLoopF : Nat → SaxParser → List Nat → Nat → Except GoError SaxParser
  | 0, _, _, debugStart => .error ⟨debugStart, "Unterminated string"⟩
  | fuel + 1, s, text, debugStart =>
    if ¬ s.eof then
      if s.peek 0 = 93 then
        .ok { s.advance 1 with text := text }
      else if s.peek 0 = 32 ∨ s.peek 0 = 9 ∨ s.peek 0 = 10 ∨ s.peek 0 = 13 then
        binLoopF fuel (s.advance 1) text debugStart
      else binLoopF fuel (s.advance 1) (text ++ [s.peek 0]) debugStart
    else .error ⟨debugStart, "Unterminated string"⟩

/-- Go `nextBinary`. -/
def SaxParser.nextBinary (s0 : SaxParser) : Except GoError SaxParser :=
  let debugStart := s0.cursor
  let s := { s0.advance 1 with t := .binary }
  binLoopF (s.Input.length + 1) s [] debugStart

/-- Digit/decimal-point scanning loop of `nextNumeric`; returns the state
after the scan together with the final `foundDot` flag. -/
def scanNumLoopF : Nat → SaxParser → Bool → Except GoError (SaxParser × Bool)
  | 0, s, foundDot => .ok (s, foundDot)
  | fuel + 1, s, foundDot =>
    if ¬ s.eof then
      if s.peek 0 = 46 then
        if foundDot then .error ⟨s.cursor, "There are multiple decimal places in this number."⟩
        else scanNumLoopF fuel (s.advance 1) true
      else if isDigit (s.peek 0) then scanNumLoopF fuel (s.advance 1) foundDot
      else .ok (s, foundDot)
    else .ok (s, foundDot)

/-- The arithmetic tail of `nextTimeSpan` (source lines: the `Atoi` results
are combined into a `time.Duration`): sign handling plus the component sum.
`time.Hour = 3600e9`, `time.Minute = 60e9`, `time.Second = 1e9`,
`time.Millisecond = 1e6` (nanoseconds). -/
def timeSpanValue (isNegative0 : Bool) (daysn0 hoursn minsn secondsn nsecsn : Int) : Int :=
  let isNegative := isNegative0 || decide (daysn0 < 0)
  let daysn := if isNegative then i64mul daysn0 (-1) else daysn0
  let ts := i64add (i64add (i64add (i64add
      (i64mul (i64mul 3600000000000 24) daysn)
      (i64mul 3600000000000 hoursn))
      (i64mul 60000000000 minsn))
      (i64mul 1000000000 secondsn))
      (i64mul 1000000 nsecsn)
  if isNegative then i64mul ts (-1) else ts

/-- Common tail of `nextTimeSpan` after the day component has been handled:
the cursor sits on the `HH:MM:SS[.fff]` part. -/
def timeSpanTail (s : SaxParser) (days : List Nat) (isNegative : Bool) : Except GoError SaxParser :=
  if s.peek 2 ≠ 58 then
    .error ⟨s.cursor + 2, "Expected a colon following the hours component of a TimeSpan."⟩
  else if s.peek 5 ≠ 58 then
    .error ⟨s.cursor + 5, "Expected a colon following the minutes component of a TimeSpan."⟩
  else
    let hasNsecs := s.peek 8 = 46
    let hours := listSlice s.Input s.cursor (s.cursor + 2)
    let minutes := listSlice s.Input (s.cursor + 3) (s.cursor + 5)
    let seconds := listSlice s.Input (s.cursor + 6) (s.cursor + 8)
    if hasNsecs ∧ ¬ (isDigit (s.peek 9) ∧ isDigit (s.peek 10) ∧ isDigit (s.peek 11)) then
      .error ⟨s.cursor + 9, "Expected exactly 3 digits for the nsecs portion of a TimeSpan."⟩
    else
      let nsecs := if hasNsecs then listSlice s.Input (s.cursor + 9) (s.cursor + 12) else []
      let s := if hasNsecs then s.advance 12 else s.advance 8
      let ts := timeSpanValue isNegative (goAtoiPair days).1 (goAtoiPair hours).1
        (goAtoiPair minutes).1 (goAtoiPair seconds).1 (goAtoiPair nsecs).1
      .ok { s with t := .timeSpan, timeSpan := ts }

/-- Go `nextTimeSpan`; `first` is the already-scanned digit run. In the
no-day-component case the cursor backtracks by `len(first)` (plus one if a
leading minus was consumed) to re-read the digits as the hour field. -/
def SaxParser.nextTimeSpan (s : SaxParser) (first : List Nat) : Except GoError SaxParser :=
  let isNegative := first.headD 0 = 45
  if s.peek 0 = 100 then
    if s.peek 1 ≠ 58 then
      .error ⟨s.cursor, "Expected a colon following the days component of a TimeSpan."⟩
    else timeSpanTail (s.advance 2) first isNegative
  else
    timeSpanTail { s with cursor := s.cursor - first.length + (if isNegative then 1 else 0) }
      [] isNegative

/-- Go `nextDate`: fixed-width `YYYY/MM/DD`. -/
def SaxParser.nextDate (s : SaxParser) : Except GoError SaxParser :=
  if s.cursor + 10 > s.Input.length then
    .error ⟨s.cursor, "Found what looks like a Date, but there are not enough characters to make a Date."⟩
  else if s.peek 7 ≠ 47 then
    .error ⟨s.cursor + 7, "Expected a slash"⟩
  else
    let yearP := goAtoiPair (listSlice s.Input s.cursor (s.cursor + 4))
    let monthP := goAtoiPair (listSlice s.Input (s.cursor + 5) (s.cursor + 7))
    let dayP := goAtoiPair (listSlice s.Input (s.cursor + 8) (s.cursor + 10))
    if ¬ yearP.2 ∨ ¬ monthP.2 ∨ ¬ dayP.2 then
      .error ⟨s.cursor, "Invalid number"⟩
    else
      .ok { s.advance 10 with t := .date, dateTime := timeDate yearP.1 monthP.1 dayP.1 0 0 0 0 }

/-- Go `nextDateTime`: a date, whitespace, then fixed-width `HH:MM:SS` and
an optional `.fff` fraction handed to `time.Date` as the nsec argument. -/
def SaxParser.nextDateTime (s0 : SaxParser) : Except GoError SaxParser :=
  match s0.nextDate with
  | .error e => .error e
  | .ok s1 =>
    let s := s1.eatWhite
    if s.cursor + 8 > s.Input.length then
      .error ⟨s.cursor, "Found what looks like a DateTime, but there are not enough characters to make a DateTime."⟩
    else if s.peek 5 ≠ 58 then
      .error ⟨s.cursor + 5, "Expected a colon."⟩
    else
      let hoursP := goAtoiPair (listSlice s.Input s.cursor (s.cursor + 2))
      let minutesP := goAtoiPair (listSlice s.Input (s.cursor + 3) (s.cursor + 5))
      let secondsP := goAtoiPair (listSlice s.Input (s.cursor + 6) (s.cursor + 8))
      if ¬ hoursP.2 ∨ ¬ minutesP.2 ∨ ¬ secondsP.2 then
        .error ⟨s.cursor, "Invalid number"⟩
      else
        let s := s.advance 8
        let fracStep : Except GoError (SaxParser × Int) :=
          if s.peek 0 = 46 then
            if s.cursor + 4 > s.Input.length then
              .error ⟨s.cursor, "Found what looks like the fractional part of a DateTime, but there are not enough characters."⟩
            else
              let fracP := goAtoiPair (listSlice s.Input (s.cursor + 1) (s.cursor + 4))
              if ¬ fracP.2 then .error ⟨s.cursor + 1, "Invalid number"⟩
              else .ok (s.advance 4, fracP.1)
          else .ok (s, 0)
        match fracStep with
        | .error e => .error e
        | .ok (s, frac) =>
          .ok { s with t := .dateTime,
                       dateTime := timeDate s.dateTime.Year s.dateTime.Month s.dateTime.Day
                         hoursP.1 minutesP.1 secondsP.1 frac }

/-- Go `nextNumeric`: date/datetime detection by fixed offsets, otherwise
a digit run with optional sign, decimal point, duration hand-off, and
type suffix. -/
def SaxParser.nextNumeric (s0 : SaxParser) : Except GoError SaxParser :=
  if s0.peek 4 = 47 then
    if s0.peek 13 = 58 ∧ isDigit (s0.peek 11) ∧ isDigit (s0.peek 12) then s0.nextDateTime
    else s0.nextDate
  else
    let start := s0.cursor
    let isNegative := s0.peek 0 = 45
    let s1 := if isNegative then s0.advance 1 else s0
    match scanNumLoopF (s1.Input.length + 1) s1 false with
    | .error e => .error e
    | .ok (s, foundDot) =>
      let num := listSlice s.Input start s.cursor
      if s.peek 0 = 100 ∨ s.peek 0 = 58 then s.nextTimeSpan num
      else
        let s := { s with t := SaxType.integer }
        let s : SaxParser :=
          if s.peek 0 = 76 then { s.advance 1 with t := .long }
          else if s.peek 0 = 70 then { s.advance 1 with t := .float }
          else if s.peek 0 = 68 then { s.advance 1 with t := .double }
          else if foundDot then { s with t := .double }
          else s
        if ¬ s.eof ∧ s.peek 0 ≠ 32 ∧ s.peek 0 ≠ 10 ∧ s.peek 0 ≠ 13 then
          .error ⟨s.cursor, "Expected whitespace or end of line or file after number."⟩
        else .ok { s with text := num }

/-- The body of Go `Next` after the initial `eatWhite`. `.inl` marks the
two places where the source recursively calls `s.Next()` again (comment
skipping and line-continuation skipping); every other outcome is final. -/
def nextStepAW (s : SaxParser) : SaxParser ⊕ Except GoError SaxParser :=
  if s.eof then .inr (.ok { s with t := .eof })
  else if (s.peek 0 = 47 ∧ s.peek 1 = 47) ∨ (s.peek 0 = 45 ∧ s.peek 1 = 45) ∨ s.peek 0 = 35 then
    .inl s.skipToEol
  else if s.peek 0 = 10 then .inr (.ok { s.advance 1 with t := .newLine })
  else if s.peek 0 = 13 then
    if s.peek 1 ≠ 10 then .inr (.error ⟨s.cursor, "Stray carriage return without a line feed following it."⟩)
    else .inr (.ok { s.advance 2 with t := .newLine })
  else if s.peek 0 = 92 ∧ s.peek 1 = 10 then .inl (s.advance 2)
  else
    .inr (
      let ch := s.peek 0
      if isIdentifierStart ch then
        let s := s.nextIdentifier
        if s.t = .attributeName then
          if s.peek 0 ≠ 61 then .error ⟨s.cursor, "Expected an equals sign following attribute name"⟩
          else .ok (s.advance 1)
        else .ok s
      else if ch = 123 then .ok { s.advance 1 with t := .openTag, text := [123] }
      else if ch = 125 then .ok { s.advance 1 with t := .closeTag, text := [125] }
      else if s.t = .newLine ∨ s.t = .failsafe then
        .ok { s with t := .tagName, text := bytes "content" }
      else if ch = 34 then s.nextDoubleQuotedString
      else if ch = 96 then s.nextBacktickString
      else if ch = 91 then s.nextBinary
      else if isDigit ch ∨ ch = 45 then s.nextNumeric
      else .error ⟨s.cursor, "Unexpected character."⟩)

/-- One pass of the body of Go `Next`: skip whitespace, then dispatch. -/
def nextStep (s0 : SaxParser) : SaxParser ⊕ Except GoError SaxParser :=
  nextStepAW s0.eatWhite

/-- Fueled iteration of `nextStep` (the fuel only bounds the comment /
line-continuation recursion, which consumes at least one byte per step). -/
def nextF : Nat → SaxParser → Except GoError SaxParser
  | 0, s => .ok { s with t := .eof }
  | fuel + 1, s =>
    match nextStep s with
    | .inl s1 => nextF fuel s1
    | .inr r => r

/-- Go `Next`: parse the next token. -/
def SaxParser.Next (s : SaxParser) : Except GoError SaxParser :=
  nextF (s.Input.length + 1) s

/-! ## Value model (`ast.go`) -/

abbrev GoInt := Int
abbrev GoBool := Bool
abbrev GoTimeT := GoTime

/-- The `sdlValueTag` enumeration. -/
inductive SdlValueTag where
  | tNull
  | tString
  | tInt
  | tFloat
  | tDateTime
  | tTimeSpan
  | tBool
  | tBinary
deriving DecidableEq, Repr

/-- `SdlValue`: the tagged union for every type representable in SDLang.
The defaults are the Go zero values. -/
structure SdlValue where
  tag : SdlValueTag := .tNull
  vString : List Nat := []
  vInt : Int := 0
  vFloat : GoFloat := 0
  vDateTime : GoTime := goZeroTime
  vTimeSpan : Int := 0
  vBool : Bool := false
  vBinary : List Nat := []

/-- Go constructor `Null()`. -/
def SdlValue.ofNull : SdlValue := {}

/-- Go constructor `String(value)`. -/
def SdlValue.ofString (value : List Nat) : SdlValue := { tag := .tString, vString := value }

/-- Go constructor `Int(value)`. -/
def SdlValue.ofInt (value : Int) : SdlValue := { tag := .tInt, vInt := value }

/-- Go constructor `Float(value)`. -/
def SdlValue.ofFloat (value : GoFloat) : SdlValue := { tag := .tFloat, vFloat := value }

/-- Go constructor `DateTime(value)`. -/
def SdlValue.ofDateTime (value : GoTime) : SdlValue := { tag := .tDateTime, vDateTime := value }

/-- Go constructor `TimeSpan(value)`. -/
def SdlValue.ofTimeSpan (value : Int) : SdlValue := { tag := .tTimeSpan, vTimeSpan := value }

/-- Go constructor `Bool(value)`. -/
def SdlValue.ofBool (value : Bool) : SdlValue := { tag := .tBool, vBool := value }

/-- Go constructor `Binary(value)`. -/
def SdlValue.ofBinary (value : List Nat) : SdlValue := { tag := .tBinary, vBinary := value }

def SdlValue.IsNull (v : SdlValue) : Bool := v.tag = .tNull
def SdlValue.IsString (v : SdlValue) : Bool := v.tag = .tString
def SdlValue.IsInt (v : SdlValue) : Bool := v.tag = .tInt
def SdlValue.IsFloat (v : SdlValue) : Bool := v.tag = .tFloat
def SdlValue.IsDateTime (v : SdlValue) : Bool := v.tag = .tDateTime
def SdlValue.IsTimeSpan (v : SdlValue) : Bool := v.tag = .tTimeSpan
def SdlValue.IsBool (v : SdlValue) : Bool := v.tag = .tBool
def SdlValue.IsBinary (v : SdlValue) : Bool := v.tag = .tBinary

/-- Accessor `SdlValue.String()`: the `(string, error)` pair is modelled by
`Except`. -/
def SdlValue.String (v : SdlValue) : Except GoStr (List Nat) :=
  if ¬ v.IsString then .error "this value is not a string" else .ok v.vString

/-- Accessor `SdlValue.Int()`. -/
def SdlValue.Int (v : SdlValue) : Except GoStr GoInt :=
  if ¬ v.IsInt then .error "this value is not an integer" else .ok v.vInt

/-- Accessor `SdlValue.Float()`. The source guards this accessor with
`!v.IsString()` (not `!v.IsFloat()`), exactly as in ast.go. -/
def SdlValue.Float (v : SdlValue) : Except GoStr GoFloat :=
  if ¬ v.IsString then .error "this value is not a float" else .ok v.vFloat

/-- Accessor `SdlValue.DateTime()` (the error branch returns `time.Now()`,
which the `Except` model simply drops). -/
def SdlValue.DateTime (v : SdlValue) : Except GoStr GoTimeT :=
  if ¬ v.IsDateTime then .error "this value is not a datetime" else .ok v.vDateTime

/-- Accessor `SdlValue.TimeSpan()`. -/
def SdlValue.TimeSpan (v : SdlValue) : Except GoStr GoInt :=
  if ¬ v.IsTimeSpan then .error "this value is not a timespan" else .ok v.vTimeSpan

/-- Accessor `SdlValue.Bool()`. -/
def SdlValue.Bool (v : SdlValue) : Except GoStr GoBool :=
  if ¬ v.IsBool then .error "this value is not a bool" else .ok v.vBool

/-- Accessor `SdlValue.Binary()`. -/
def SdlValue.Binary (v : SdlValue) : Except GoStr (List Nat) :=
  if ¬ v.IsBinary then .error "this value is not a binary blob" else .ok v.vBinary

/-- `SdlAttribute`. -/
structure SdlAttribute where
  Namespace : List Nat := []
  Name : List Nat := []
  QualifiedName : List Nat := []
  Value : SdlValue := {}

/-- `SdlTag`; `Attributes` models the Go map as an association list with
insert-or-overwrite updates (`upsertAttr`). -/
inductive SdlTag where
  | mk : (Namespace Name QualifiedName : List Nat) → (Children : List SdlTag) →
      (Attributes : List (List Nat × SdlAttribute)) → (Values : List SdlValue) → SdlTag

def SdlTag.Namespace : SdlTag → List Nat
  | .mk ns _ _ _ _ _ => ns

def SdlTag.Name : SdlTag → List Nat
  | .mk _ n _ _ _ _ => n

def SdlTag.QualifiedName : SdlTag → List Nat
  | .mk _ _ qn _ _ _ => qn

def SdlTag.Children : SdlTag → List SdlTag
  | .mk _ _ _ c _ _ => c

def SdlTag.Attributes : SdlTag → List (List Nat × SdlAttribute)
  | .mk _ _ _ _ a _ => a

def SdlTag.Values : SdlTag → List SdlValue
  | .mk _ _ _ _ _ v => v

/-- The zero `SdlTag` (Go `SdlTag{}`), in particular the pre-seeded root. -/
def emptyTag : SdlTag := .mk [] [] [] [] [] []

/-- Map update `m[k] = v` on the association-list model of the Go
attributes map. -/
def upsertAttr (m : List (List Nat × SdlAttribute)) (k : List Nat) (v : SdlAttribute) :
    List (List Nat × SdlAttribute) :=
  match m with
  | [] => [(k, v)]
  | (k0, v0) :: rest => if k0 = k then (k, v) :: rest else (k0, v0) :: upsertAttr rest k v

/-- Go `handleValue`: decode the current token into an `SdlValue`. `none`
models the `panic` in the final else branch. In the `IsBinary` case the
source calls `base64.NewDecoder(...).Read(v.vBinary)` with `v.vBinary`
still the zero value, a nil (zero-length) slice, so the read stores
nothing and the decoded bytes are discarded: `vBinary` stays empty. -/
def handleValue (p : SaxParser) : Option SdlValue :=
  if p.IsBinary then some { tag := .tBinary }
  else if p.IsBool then some { tag := .tBool, vBool := p.boolean }
  else if p.IsDate ∨ p.IsDateTime then some { tag := .tDateTime, vDateTime := p.dateTime }
  else if p.IsDouble ∨ p.IsFloat then some { tag := .tFloat, vFloat := goParseFloat p.text }
  else if p.IsInteger ∨ p.IsLong then some { tag := .tInt, vInt := (goAtoiPair p.text).1 }
  else if p.IsNull then some { tag := .tNull }
  else if p.IsString then some { tag := .tString, vString := p.text }
  else if p.IsTimeSpan then some { tag := .tTimeSpan, vTimeSpan := p.timeSpan }
  else none

/-- Result of `ParseIntoAst`: the root tag, a returned error, a Go runtime
panic (out-of-range index on the parse stack, or the `handleValue` panic),
or fuel exhaustion of the model (shown below to be unreachable). -/
inductive AstResult where
  | ok : SdlTag → AstResult
  | err : GoError → AstResult
  | panic : AstResult
  | outOfFuel : AstResult

def AstResult.isOkB : AstResult → Bool
  | .ok _ => true
  | _ => false

def AstResult.isErrB : AstResult → Bool
  | .err _ => true
  | _ => false

def AstResult.isPanicB : AstResult → Bool
  | .panic => true
  | _ => false

/-- The root tag of a successful parse (`emptyTag` otherwise). -/
def AstResult.rootOr : AstResult → SdlTag
  | .ok tg => tg
  | _ => emptyTag

/-- Qualified-name computation of ast.go: `AdditionalText() + ":" + Text()`,
with a leading colon stripped. -/
def qualify (namespc nam : List Nat) : List Nat :=
  let qn := namespc ++ [58] ++ nam
  if qn.headD 0 = 58 then qn.tail else qn

/-- The loop of `ParseIntoAst`. The stack is kept top-first (the Go
`currTagStack` grows at the other end: Go `currTagStack[len-1]` is the head
here, and the pre-seeded root `currTagStack[0]` is the last element).
`.panic` models the out-of-range Go index `currTagStack[len(currTagStack)-2]`
taken when only the root remains. -/
def parseLoop : Nat → SaxParser → List SdlTag → Bool → AstResult
  | 0, _, _, _ => .outOfFuel
  | fuel + 1, p0, stack, prevWasNewLine =>
    match p0.Next with
    | .error e => .err e
    | .ok p =>
      if p.IsEof then
        match stack.getLast? with
        | some root => .ok root
        | none => .panic
      else if p.IsTagName then
        if ¬ prevWasNewLine then
          .err ⟨p.cursor, "(probably a bug) Tag names can only appear at the start of new lines."⟩
        else
          parseLoop fuel p
            (.mk p.addText p.text (qualify p.addText p.text) [] [] [] :: stack) false
      else if p.IsAttributeName then
        let ns := p.addText
        let nm := p.text
        let qn := qualify ns nm
        match p.Next with
        | .error e => .err e
        | .ok p2 =>
          match handleValue p2 with
          | none => .panic
          | some v =>
            match stack with
            | .mk tns tn tqn tch tat tv :: rest =>
              parseLoop fuel p2
                (.mk tns tn tqn tch
                  (upsertAttr tat qn { Namespace := ns, Name := nm, QualifiedName := qn, Value := v })
                  tv :: rest) false
            | [] => .panic
      else if p.IsNewLine then
        if ¬ prevWasNewLine then
          match stack with
          | child :: .mk pns pn pqn pch pat pv :: rest =>
            parseLoop fuel p (.mk pns pn pqn (pch ++ [child]) pat pv :: rest) true
          | _ => .panic
        else parseLoop fuel p stack true
      else if p.IsOpenTag then
        if prevWasNewLine then
          .err ⟨p.cursor, "Opening braces have to be on the same line as a tag."⟩
        else
          match p.Next with
          | .error e => .err e
          | .ok p2 =>
            if ¬ p2.IsNewLine then
              .err ⟨p2.cursor, "Expected a new line following opening brace."⟩
            else parseLoop fuel p2 stack true
      else if p.IsCloseTag then
        if ¬ prevWasNewLine then
          .err ⟨p.cursor, "Closing braces must be on their own line."⟩
        else
          match p.Next with
          | .error e => .err e
          | .ok p2 =>
            if ¬ p2.IsNewLine ∧ ¬ p2.IsEof then
              .err ⟨p2.cursor, "Expected a new line or end of file following closing brace."⟩
            else
              match stack with
              | child :: .mk pns pn pqn pch pat pv :: rest =>
                parseLoop fuel p2 (.mk pns pn pqn (pch ++ [child]) pat pv :: rest) true
              | _ => .panic
      else
        match handleValue p with
        | none => .panic
        | some v =>
          match stack with
          | .mk tns tn tqn tch tat tv :: rest =>
            parseLoop fuel p (.mk tns tn tqn tch tat (tv ++ [v]) :: rest) false
          | [] => .panic

/-- Go `ParseIntoAst`: run the loop on the pre-seeded root. The fuel
`2 * Input.length + 2` exceeds the measure `2 * lenRem + newline-flag`,
which strictly decreases at every iteration (shown below), so the
`.outOfFuel` case never arises. -/
def SaxParser.ParseIntoAst (p : SaxParser) : AstResult :=
  parseLoop (2 * p.Input.length + 2) p [emptyTag] true

/-- A fresh parser over an input, `SaxParser{Input: code}` in Go. -/
def mkParser (input : List Nat) : SaxParser := { Input := input }

/-! ## Basic facts about the tokenizer state -/

theorem eof_iff (s : SaxParser) : s.eof = true ↔ s.Input.length ≤ s.cursor := by
  simp [SaxParser.eof]

theorem not_eof_iff (s : SaxParser) : s.eof = false ↔ s.cursor < s.Input.length := by
  simp [SaxParser.eof]

@[simp] theorem advance_Input (s : SaxParser) (n : Nat) : (s.advance n).Input = s.Input := rfl

@[simp] theorem advance_cursor (s : SaxParser) (n : Nat) : (s.advance n).cursor = s.cursor + n := rfl

@[simp] theorem advance_t (s : SaxParser) (n : Nat) : (s.advance n).t = s.t := rfl

/-- If `peek` does not return the end sentinel, the peeked position is in
range (note a genuine `0xff` input byte also yields 255, like in Go). -/
theorem peek_ne_sentinel {s : SaxParser} {off : Nat} (h : s.peek off ≠ 255) :
    s.cursor + off < s.Input.length := by
  by_contra hc
  simp [SaxParser.peek] at h
  omega

theorem peek_eq_getD {s : SaxParser} {off : Nat} (h : s.cursor + off < s.Input.length) :
    s.peek off = s.Input.getD (s.cursor + off) 0 := by
  simp [SaxParser.peek]
  omega

/-! ## Spec lemmas for the scanning loops: with fuel above `lenRem` every
loop only moves the cursor forward (never past the input end from inside
it), leaves every other field unchanged, and stops only at its exit
condition, so the fueled functions satisfy exactly the Go loop equations. -/

theorem eatWhiteF_spec : ∀ (f : Nat) (s : SaxParser), lenRem s < f →
    ∃ c, eatWhiteF f s = { s with cursor := c } ∧ s.cursor ≤ c ∧
      c ≤ max s.cursor s.Input.length ∧
      ((eatWhiteF f s).eof = true ∨
        ((eatWhiteF f s).peek 0 ≠ 32 ∧ (eatWhiteF f s).peek 0 ≠ 9)) := by
  intro f
  induction f with
  | zero => intro s h; simp [lenRem] at h
  | succ f ih =>
    intro s h
    rw [eatWhiteF]
    split
    · rename_i hc
      have hlt : s.cursor < s.Input.length := by
        have h1 := hc.1
        simp [SaxParser.eof] at h1
        omega
      have hrem : lenRem (s.advance 1) < f := by
        simp [lenRem, SaxParser.advance] at h ⊢
        omega
      obtain ⟨c, heq, hle, hub, hstop⟩ := ih (s.advance 1) hrem
      refine ⟨c, ?_, ?_, ?_, hstop⟩
      · rw [heq]
        simp [SaxParser.advance]
      · simp [SaxParser.advance] at hle
        omega
      · simp [SaxParser.advance] at hub
        omega
    · rename_i hc
      refine ⟨s.cursor, by rfl, le_refl _, le_max_left _ _, ?_⟩
      rcases Decidable.em (s.eof = true) with he | he
      · exact Or.inl he
      · right
        constructor
        · intro h32
          exact hc ⟨by simp [he], Or.inl h32⟩
        · intro h9
          exact hc ⟨by simp [he], Or.inr h9⟩

theorem eatWhite_spec (s : SaxParser) :
    ∃ c, s.eatWhite = { s with cursor := c } ∧ s.cursor ≤ c ∧
      c ≤ max s.cursor s.Input.length ∧
      (s.eatWhite.eof = true ∨ (s.eatWhite.peek 0 ≠ 32 ∧ s.eatWhite.peek 0 ≠ 9)) := by
  have h : lenRem s < s.Input.length + 1 := by simp [lenRem]; omega
  exact eatWhiteF_spec (s.Input.length + 1) s h

theorem skipToEolF_spec : ∀ (f : Nat) (s : SaxParser), lenRem s < f →
    ∃ c, skipToEolF f s = { s with cursor := c } ∧ s.cursor ≤ c ∧
      c ≤ max s.cursor s.Input.length ∧
      (s.eof = false ∧ s.peek 0 ≠ 10 → s.cursor < c) := by
  intro f
  induction f with
  | zero => intro s h; simp [lenRem] at h
  | succ f ih =>
    intro s h
    rw [skipToEolF]
    split
    · rename_i hc
      have hlt : s.cursor < s.Input.length := by
        have h1 := hc.1
        simp [SaxParser.eof] at h1
        omega
      have hrem : lenRem (s.advance 1) < f := by
        simp [lenRem, SaxParser.advance] at h ⊢
        omega
      obtain ⟨c, heq, hle, hub, _⟩ := ih (s.advance 1) hrem
      refine ⟨c, ?_, ?_, ?_, ?_⟩
      · rw [heq]
        simp [SaxParser.advance]
      · simp [SaxParser.advance] at hle
        omega
      · simp [SaxParser.advance] at hub
        omega
      · intro _
        simp [SaxParser.advance] at hle
        omega
    · rename_i hc
      refine ⟨s.cursor, by rfl, le_refl _, le_max_left _ _, ?_⟩
      intro hcond
      exact absurd ⟨by simp [hcond.1], hcond.2⟩ hc

theorem skipToEol_spec (s : SaxParser) :
    ∃ c, s.skipToEol = { s with cursor := c } ∧ s.cursor ≤ c ∧
      c ≤ max s.cursor s.Input.length ∧
      (s.eof = false ∧ s.peek 0 ≠ 10 → s.cursor < c) := by
  have h : lenRem s < s.Input.length + 1 := by simp [lenRem]; omega
  exact skipToEolF_spec (s.Input.length + 1) s h

theorem scanIdentF_spec : ∀ (f : Nat) (s : SaxParser), lenRem s < f →
    ∃ c, scanIdentF f s = { s with cursor := c } ∧ s.cursor ≤ c ∧
      c ≤ max s.cursor s.Input.length ∧
      (isIdentifierContinue (s.peek 0) = true → s.cursor < c) := by
  intro f
  induction f with
  | zero => intro s h; simp [lenRem] at h
  | succ f ih =>
    intro s h
    rw [scanIdentF]
    split
    · rename_i hc
      have hlt : s.cursor < s.Input.length := by
        have hne : s.peek 0 ≠ 255 := by
          intro hp
          rw [hp] at hc
          simp [isIdentifierContinue] at hc
        have := peek_ne_sentinel hne
        omega
      have hrem : lenRem (s.advance 1) < f := by
        simp [lenRem, SaxParser.advance] at h ⊢
        omega
      obtain ⟨c, heq, hle, hub, _⟩ := ih (s.advance 1) hrem
      refine ⟨c, ?_, ?_, ?_, ?_⟩
      · rw [heq]
        simp [SaxParser.advance]
      · simp [SaxParser.advance] at hle
        omega
      · simp [SaxParser.advance] at hub
        omega
      · intro _
        simp [SaxParser.advance] at hle
        omega
    · rename_i hc
      exact ⟨s.cursor, by rfl, le_refl _, le_max_left _ _, fun hcond => absurd hcond hc⟩

theorem scanIdent_spec (s : SaxParser) :
    ∃ c, s.scanIdent = { s with cursor := c } ∧ s.cursor ≤ c ∧
      c ≤ max s.cursor s.Input.length ∧
      (isIdentifierContinue (s.peek 0) = true → s.cursor < c) := by
  have h : lenRem s < s.Input.length + 1 := by simp [lenRem]; omega
  exact scanIdentF_spec (s.Input.length + 1) s h

theorem dqLoopF_ok : ∀ (f : Nat) (s : SaxParser) (text : List Nat) (start dbg : Nat)
    (s' : SaxParser), lenRem s < f → dqLoopF f s text start dbg = .ok s' →
    s'.Input = s.Input ∧ s.cursor < s'.cursor := by
  intro f
  induction f with
  | zero => intro s text start dbg s' h; simp [lenRem] at h
  | succ f ih =>
    intro s text start dbg s' h hok
    rw [dqLoopF] at hok
    simp only [] at hok
    split at hok
    · rename_i hne
      have hlt : s.cursor < s.Input.length := by
        simp [SaxParser.eof] at hne
        omega
      split at hok
      · -- backslash escape
        split at hok
        case isTrue =>
          have hrem : lenRem ((s.advance 1).advance 1) < f := by
            simp [lenRem, SaxParser.advance] at h ⊢
            omega
          have := ih _ _ _ _ _ hrem hok
          simp [SaxParser.advance] at this
          exact ⟨this.1, by omega⟩
        case isFalse =>
          split at hok
          case isTrue =>
            have hrem : lenRem ((s.advance 1).advance 1) < f := by
              simp [lenRem, SaxParser.advance] at h ⊢
              omega
            have := ih _ _ _ _ _ hrem hok
            simp [SaxParser.advance] at this
            exact ⟨this.1, by omega⟩
          case isFalse =>
            split at hok
            case isTrue =>
              have hrem : lenRem ((s.advance 1).advance 1) < f := by
                simp [lenRem, SaxParser.advance] at h ⊢
                omega
              have := ih _ _ _ _ _ hrem hok
              simp [SaxParser.advance] at this
              exact ⟨this.1, by omega⟩
            case isFalse =>
              split at hok
              case isTrue =>
                have hrem : lenRem ((s.advance 1).advance 1) < f := by
                  simp [lenRem, SaxParser.advance] at h ⊢
                  omega
                have := ih _ _ _ _ _ hrem hok
                simp [SaxParser.advance] at this
                exact ⟨this.1, by omega⟩
              case isFalse =>
                split at hok
                case isTrue =>
                  have hrem : lenRem ((s.advance 1).advance 1) < f := by
                    simp [lenRem, SaxParser.advance] at h ⊢
                    omega
                  have := ih _ _ _ _ _ hrem hok
                  simp [SaxParser.advance] at this
                  exact ⟨this.1, by omega⟩
                case isFalse =>
                  split at hok
                  case isTrue =>
                    obtain ⟨c, heq, hc1, hc2, _⟩ := eatWhite_spec ((s.advance 1).advance 1)
                    rw [heq] at hok
                    have hrem : lenRem { (s.advance 1).advance 1 with cursor := c } < f := by
                      simp [SaxParser.advance] at hc1
                      simp [lenRem, SaxParser.advance] at h ⊢
                      omega
                    have := ih _ _ _ _ _ hrem hok
                    simp [SaxParser.advance] at this hc1
                    exact ⟨this.1, by omega⟩
                  case isFalse => exact absurd hok (by simp)
      · -- closing quote
        split at hok
        case isTrue =>
          cases hok
          exact ⟨rfl, by simp [SaxParser.advance]⟩
        case isFalse =>
          split at hok
          case isTrue => exact absurd hok (by simp)
          case isFalse =>
            have hrem : lenRem (s.advance 1) < f := by
              simp [lenRem, SaxParser.advance] at h ⊢
              omega
            have := ih _ _ _ _ _ hrem hok
            simp [SaxParser.advance] at this
            exact ⟨this.1, by omega⟩
    · exact absurd hok (by simp)

theorem btLoopF_ok : ∀ (f : Nat) (s : SaxParser) (start dbg : Nat) (s' : SaxParser),
    lenRem s < f → btLoopF f s start dbg = .ok s' →
    s'.Input = s.Input ∧ s.cursor < s'.cursor := by
  intro f
  induction f with
  | zero => intro s start dbg s' h; simp [lenRem] at h
  | succ f ih =>
    intro s start dbg s' h hok
    rw [btLoopF] at hok
    split at hok
    · rename_i hne
      have hlt : s.cursor < s.Input.length := by
        simp [SaxParser.eof] at hne
        omega
      split at hok
      case isTrue =>
        cases hok
        exact ⟨rfl, by simp [SaxParser.advance]⟩
      case isFalse =>
        split at hok
        case isTrue => exact absurd hok (by simp)
        case isFalse =>
          have hrem : lenRem (s.advance 1) < f := by
            simp [lenRem, SaxParser.advance] at h ⊢
            omega
          have := ih _ _ _ _ hrem hok
          simp [SaxParser.advance] at this
          exact ⟨this.1, by omega⟩
    · exact absurd hok (by simp)

theorem binLoopF_ok : ∀ (f : Nat) (s : SaxParser) (text : List Nat) (dbg : Nat)
    (s' : SaxParser), lenRem s < f → binLoopF f s text dbg = .ok s' →
    s'.Input = s.Input ∧ s.cursor < s'.cursor := by
  intro f
  induction f with
  | zero => intro s text dbg s' h; simp [lenRem] at h
  | succ f ih =>
    intro s text dbg s' h hok
    rw [binLoopF] at hok
    split at hok
    · rename_i hne
      have hlt : s.cursor < s.Input.length := by
        simp [SaxParser.eof] at hne
        omega
      split at hok
      case isTrue =>
        cases hok
        exact ⟨rfl, by simp [SaxParser.advance]⟩
      case isFalse =>
        split at hok
        case isTrue =>
          have hrem : lenRem (s.advance 1) < f := by
            simp [lenRem, SaxParser.advance] at h ⊢
            omega
          have := ih _ _ _ _ hrem hok
          simp [SaxParser.advance] at this
          exact ⟨this.1, by omega⟩
        case isFalse =>
          have hrem : lenRem (s.advance 1) < f := by
            simp [lenRem, SaxParser.advance] at h ⊢
            omega
          have := ih _ _ _ _ hrem hok
          simp [SaxParser.advance] at this
          exact ⟨this.1, by omega⟩
    · exact absurd hok (by simp)

theorem scanNumLoopF_ok : ∀ (f : Nat) (s : SaxParser) (fd : Bool) (s' : SaxParser)
    (fd' : Bool), lenRem s < f → scanNumLoopF f s fd = .ok (s', fd') →
    ∃ c, s' = { s with cursor := c } ∧ s.cursor ≤ c ∧ c ≤ max s.cursor s.Input.length ∧
      (s.eof = false ∧ (s.peek 0 = 46 ∨ isDigit (s.peek 0) = true) → s.cursor < c) := by
  intro f
  induction f with
  | zero => intro s fd s' fd' h; simp [lenRem] at h
  | succ f ih =>
    intro s fd s' fd' h hok
    rw [scanNumLoopF] at hok
    split at hok
    · rename_i hne
      have hlt : s.cursor < s.Input.length := by
        simp [SaxParser.eof] at hne
        omega
      have hrem : lenRem (s.advance 1) < f := by
        simp [lenRem, SaxParser.advance] at h ⊢
        omega
      split at hok
      · split at hok
        case isTrue => exact absurd hok (by simp)
        case isFalse =>
          obtain ⟨c, heq, hc1, hc2, _⟩ := ih _ _ _ _ hrem hok
          refine ⟨c, by rw [heq]; simp [SaxParser.advance], ?_, ?_, ?_⟩
          · simp [SaxParser.advance] at hc1
            omega
          · simp [SaxParser.advance] at hc2
            omega
          · intro _
            simp [SaxParser.advance] at hc1
            omega
      · split at hok
        case isTrue =>
          obtain ⟨c, heq, hc1, hc2, _⟩ := ih _ _ _ _ hrem hok
          refine ⟨c, by rw [heq]; simp [SaxParser.advance], ?_, ?_, ?_⟩
          · simp [SaxParser.advance] at hc1
            omega
          · simp [SaxParser.advance] at hc2
            omega
          · intro _
            simp [SaxParser.advance] at hc1
            omega
        case isFalse =>
          rename_i hnd hnd2
          cases hok
          refine ⟨s.cursor, by simp, le_refl _, le_max_left _ _, ?_⟩
          intro hcond
          rcases hcond.2 with hd | hd
          · exact absurd hd hnd
          · exact absurd hd hnd2
    · rename_i hne
      cases hok
      refine ⟨s.cursor, by simp, le_refl _, le_max_left _ _, ?_⟩
      intro hcond
      simp [hcond.1] at hne

theorem ident_start_continue {c : Nat} (h : isIdentifierStart c = true) :
    isIdentifierContinue c = true := by
  simp [isIdentifierStart] at h
  simp [isIdentifierContinue]
  omega

theorem scanIdent_Input (s : SaxParser) : s.scanIdent.Input = s.Input := by
  obtain ⟨c, heq, _, _, _⟩ := scanIdent_spec s
  rw [heq]

theorem scanIdent_cursor_le (s : SaxParser) : s.cursor ≤ s.scanIdent.cursor := by
  obtain ⟨c, heq, hle, _, _⟩ := scanIdent_spec s
  rw [heq]
  exact hle

theorem scanIdent_cursor_gt (s : SaxParser) (h : isIdentifierContinue (s.peek 0) = true) :
    s.cursor < s.scanIdent.cursor := by
  obtain ⟨c, heq, _, _, hstrict⟩ := scanIdent_spec s
  rw [heq]
  exact hstrict h

theorem identTail_ok (s : SaxParser) (h : isIdentifierContinue (s.peek 0) = true) :
    (identTail s).Input = s.Input ∧ s.cursor < (identTail s).cursor := by
  unfold identTail
  simp only []
  split
  · exact ⟨scanIdent_Input s, scanIdent_cursor_gt s h⟩
  · split
    · exact ⟨scanIdent_Input s, scanIdent_cursor_gt s h⟩
    · split
      · exact ⟨scanIdent_Input s, scanIdent_cursor_gt s h⟩
      · split
        · exact ⟨scanIdent_Input s, scanIdent_cursor_gt s h⟩
        · constructor
          · simp [scanIdent_Input, SaxParser.advance]
          · have h1 := scanIdent_cursor_gt s h
            have h2 := scanIdent_cursor_le ({ Input := s.scanIdent.Input, FileName := s.scanIdent.FileName, cursor := s.scanIdent.cursor + 1, t := s.scanIdent.t, text := s.scanIdent.text, addText := listSlice s.scanIdent.Input s.cursor s.scanIdent.cursor, dateTime := s.scanIdent.dateTime, timeSpan := s.scanIdent.timeSpan, boolean := s.scanIdent.boolean } : SaxParser)
            simp only [SaxParser.advance] at h2 ⊢
            omega

theorem nextIdentifier_ok (s : SaxParser) (h : isIdentifierStart (s.peek 0) = true) :
    s.nextIdentifier.Input = s.Input ∧ s.cursor < s.nextIdentifier.cursor := by
  unfold SaxParser.nextIdentifier
  split
  · exact identTail_ok { s with t := SaxType.tagName } (ident_start_continue h)
  · exact identTail_ok { s with t := SaxType.attributeName } (ident_start_continue h)

theorem timeSpanTail_ok (s : SaxParser) (days : List Nat) (neg : Bool) (s' : SaxParser)
    (hok : timeSpanTail s days neg = .ok s') :
    s'.Input = s.Input ∧ (s'.cursor = s.cursor + 8 ∨ s'.cursor = s.cursor + 12) := by
  unfold timeSpanTail at hok
  simp only [] at hok
  split at hok
  · exact absurd hok (by simp)
  · split at hok
    · exact absurd hok (by simp)
    · split at hok
      · exact absurd hok (by simp)
      · split at hok
        · cases hok
          exact ⟨rfl, Or.inr (by simp [SaxParser.advance])⟩
        · cases hok
          exact ⟨rfl, Or.inl (by simp [SaxParser.advance])⟩

theorem nextTimeSpan_ok (s : SaxParser) (first : List Nat) (s' : SaxParser)
    (hok : s.nextTimeSpan first = .ok s') :
    s'.Input = s.Input ∧ s.cursor - first.length < s'.cursor := by
  unfold SaxParser.nextTimeSpan at hok
  simp only [] at hok
  split at hok
  · split at hok
    · exact absurd hok (by simp)
    · obtain ⟨hI, hc⟩ := timeSpanTail_ok _ _ _ _ hok
      simp [SaxParser.advance] at hI hc
      exact ⟨hI, by omega⟩
  · obtain ⟨hI, hc⟩ := timeSpanTail_ok _ _ _ _ hok
    simp at hI hc
    refine ⟨hI, ?_⟩
    rcases hc with hc | hc <;> (rw [hc]; split <;> omega)

theorem nextDate_ok (s : SaxParser) (s' : SaxParser) (hok : s.nextDate = .ok s') :
    s'.Input = s.Input ∧ s'.cursor = s.cursor + 10 := by
  unfold SaxParser.nextDate at hok
  simp only [] at hok
  split at hok
  · exact absurd hok (by simp)
  · split at hok
    · exact absurd hok (by simp)
    · split at hok
      · exact absurd hok (by simp)
      · cases hok
        exact ⟨rfl, by simp [SaxParser.advance]⟩

theorem nextDateTime_ok (s : SaxParser) (s' : SaxParser) (hok : s.nextDateTime = .ok s') :
    s'.Input = s.Input ∧ s.cursor < s'.cursor := by
  unfold SaxParser.nextDateTime at hok
  split at hok
  · exact absurd hok (by simp)
  · rename_i s1 hdate
    obtain ⟨hI1, hc1⟩ := nextDate_ok s s1 hdate
    obtain ⟨c, heq, hle, hub, _⟩ := eatWhite_spec s1
    rw [heq] at hok
    simp only [] at hok
    split at hok
    · exact absurd hok (by simp)
    · split at hok
      · exact absurd hok (by simp)
      · split at hok
        · exact absurd hok (by simp)
        · split at hok
          · exact absurd hok (by simp)
          · rename_i pair heq2
            cases hok
            split at heq2
            · split at heq2
              · exact absurd heq2 (by simp)
              · split at heq2
                · exact absurd heq2 (by simp)
                · cases heq2
                  refine ⟨?_, ?_⟩
                  · show s1.Input = s.Input
                    exact hI1
                  · show s.cursor < c + 8 + 4
                    omega
            · cases heq2
              refine ⟨?_, ?_⟩
              · show s1.Input = s.Input
                exact hI1
              · show s.cursor < c + 8
                omega

theorem listSlice_length (l : List Nat) (a b : Nat) :
    (listSlice l a b).length = min b l.length - a := by
  simp [listSlice]

theorem nextNumeric_ok (s : SaxParser) (s' : SaxParser)
    (hlt : s.cursor < s.Input.length)
    (hch : isDigit (s.peek 0) = true ∨ s.peek 0 = 45)
    (hok : s.nextNumeric = .ok s') :
    s'.Input = s.Input ∧ s.cursor < s'.cursor := by
  unfold SaxParser.nextNumeric at hok
  simp only [] at hok
  split at hok
  · split at hok
    · exact nextDateTime_ok s s' hok
    · obtain ⟨hI, hc⟩ := nextDate_ok s s' hok
      exact ⟨hI, by omega⟩
  · split at hok
    case h_1 => exact absurd hok (by simp)
    all_goals rename_i sc heqScan
    all_goals {
      have hrem : lenRem (if s.peek 0 = 45 then s.advance 1 else s) <
          (if s.peek 0 = 45 then s.advance 1 else s).Input.length + 1 := by
        simp [lenRem]
        omega
      obtain ⟨c, heqc, hle, hub, hstrict⟩ := scanNumLoopF_ok _ _ _ _ _ hrem heqScan
      have hIb : (if s.peek 0 = 45 then s.advance 1 else s : SaxParser).Input = s.Input := by
        split <;> rfl
      have hcub : c ≤ s.Input.length := by
        split at hub
        · simp [SaxParser.advance] at hub
          omega
        · simp at hub
          omega
      have hstr : s.cursor < c := by
        rcases hch with hd | hd
        · have hne : ¬ s.peek 0 = 45 := by
            simp [isDigit] at hd
            omega
          have := hstrict
          rw [if_neg hne] at this
          exact this ⟨by simp [SaxParser.eof]; omega, Or.inr hd⟩
        · have := hle
          rw [if_pos hd] at this
          simp [SaxParser.advance] at this
          omega
      have hs1 : (if s.peek 0 = 45 then s.advance 1 else s : SaxParser) = (if s.peek 0 = 45 then s.advance 1 else s : SaxParser) := rfl
      generalize hgen : (if s.peek 0 = 45 then s.advance 1 else s : SaxParser) = s1 at heqc hok hIb
      rw [heqc] at hok
      split at hok
      · -- duration hand-off via nextTimeSpan
        obtain ⟨hI, hc⟩ := nextTimeSpan_ok _ _ _ hok
        constructor
        · have hI2 : s'.Input = s1.Input := hI
          rw [hI2, hIb]
        · have hc2 : c - (listSlice s1.Input s.cursor c).length < s'.cursor := hc
          rw [hIb, listSlice_length] at hc2
          omega
      · -- plain number with optional type suffix; five classification cases,
        -- each followed by the trailing-whitespace check
        split at hok
        · split at hok
          · exact absurd hok (by simp)
          · cases hok
            exact ⟨hIb, Nat.lt_succ_of_lt hstr⟩
        · split at hok
          · split at hok
            · exact absurd hok (by simp)
            · cases hok
              exact ⟨hIb, Nat.lt_succ_of_lt hstr⟩
          · split at hok
            · split at hok
              · exact absurd hok (by simp)
              · cases hok
                exact ⟨hIb, Nat.lt_succ_of_lt hstr⟩
            · split at hok
              · split at hok
                · exact absurd hok (by simp)
                · cases hok
                  exact ⟨hIb, hstr⟩
              · split at hok
                · exact absurd hok (by simp)
                · cases hok
                  exact ⟨hIb, hstr⟩
    }

theorem nextDoubleQuotedString_ok (s : SaxParser) (s' : SaxParser)
    (hok : s.nextDoubleQuotedString = .ok s') :
    s'.Input = s.Input ∧ s.cursor < s'.cursor := by
  unfold SaxParser.nextDoubleQuotedString at hok
  simp only [] at hok
  obtain ⟨hI, hc⟩ := (fun h => dqLoopF_ok _ _ _ _ _ _ h hok) (by simp [lenRem] <;> omega)
  have hc2 : s.cursor + 1 < s'.cursor := hc
  exact ⟨hI, by omega⟩

theorem nextBacktickString_ok (s : SaxParser) (s' : SaxParser)
    (hok : s.nextBacktickString = .ok s') :
    s'.Input = s.Input ∧ s.cursor < s'.cursor := by
  unfold SaxParser.nextBacktickString at hok
  simp only [] at hok
  obtain ⟨hI, hc⟩ := (fun h => btLoopF_ok _ _ _ _ _ h hok) (by simp [lenRem] <;> omega)
  have hc2 : s.cursor + 1 < s'.cursor := hc
  exact ⟨hI, by omega⟩

theorem nextBinary_ok (s : SaxParser) (s' : SaxParser)
    (hok : s.nextBinary = .ok s') :
    s'.Input = s.Input ∧ s.cursor < s'.cursor := by
  unfold SaxParser.nextBinary at hok
  simp only [] at hok
  obtain ⟨hI, hc⟩ := (fun h => binLoopF_ok _ _ _ _ _ h hok) (by simp [lenRem] <;> omega)
  have hc2 : s.cursor + 1 < s'.cursor := hc
  exact ⟨hI, by omega⟩

/-! ## The termination measure: twice the remaining input plus one when the
current token state can trigger the non-consuming synthesized `content`
TagName (previous token NewLine, or start of input). -/

def flagOf (s : SaxParser) : Nat := if s.t = .newLine ∨ s.t = .failsafe then 1 else 0

def mu (s : SaxParser) : Nat := 2 * lenRem s + flagOf s

theorem flagOf_le_one (s : SaxParser) : flagOf s ≤ 1 := by
  unfold flagOf
  split <;> omega

theorem mu_lt_of_cursor_lt {s s' : SaxParser} (hI : s'.Input = s.Input)
    (hc : s.cursor < s'.cursor) (hlt : s.cursor < s.Input.length) : mu s' < mu s := by
  have h1 := flagOf_le_one s'
  have h0 : 0 ≤ flagOf s := Nat.zero_le _
  unfold mu lenRem
  rw [hI]
  omega

theorem mu_le_of_cursor_le {s s' : SaxParser} (hI : s'.Input = s.Input)
    (hc : s.cursor ≤ s'.cursor) (hf : flagOf s' = flagOf s) : mu s' ≤ mu s := by
  unfold mu lenRem
  rw [hI, hf]
  omega

theorem nextStepAW_inl (s s1 : SaxParser) (h : nextStepAW s = .inl s1) :
    s1.Input = s.Input ∧ lenRem s1 < lenRem s := by
  unfold nextStepAW at h
  by_cases h1 : s.eof = true
  · rw [if_pos h1] at h
    exact Sum.noConfusion h
  · rw [if_neg h1] at h
    have hclen : s.cursor < s.Input.length := by
      simp [SaxParser.eof] at h1
      exact h1
    by_cases h2 : (s.peek 0 = 47 ∧ s.peek 1 = 47) ∨ (s.peek 0 = 45 ∧ s.peek 1 = 45) ∨ s.peek 0 = 35
    · rw [if_pos h2] at h
      obtain ⟨c2, heq2, hle2, hub2, hstrict2⟩ := skipToEol_spec s
      rw [heq2] at h
      cases h
      refine ⟨rfl, ?_⟩
      have hne10 : s.peek 0 ≠ 10 := by
        rcases h2 with ⟨h47, _⟩ | ⟨h45, _⟩ | h35 <;> omega
      have hstrict3 := hstrict2 ⟨by simp [SaxParser.eof]; omega, hne10⟩
      simp only [lenRem]
      omega
    · rw [if_neg h2] at h
      by_cases h3 : s.peek 0 = 10
      · rw [if_pos h3] at h
        exact Sum.noConfusion h
      · rw [if_neg h3] at h
        by_cases h4 : s.peek 0 = 13
        · rw [if_pos h4] at h
          split at h <;> exact Sum.noConfusion h
        · rw [if_neg h4] at h
          by_cases h5 : s.peek 0 = 92 ∧ s.peek 1 = 10
          · rw [if_pos h5] at h
            cases h
            refine ⟨rfl, ?_⟩
            simp only [lenRem, SaxParser.advance]
            omega
          · rw [if_neg h5] at h
            exact Sum.noConfusion h

theorem eatWhite_Input (s : SaxParser) : s.eatWhite.Input = s.Input := by
  obtain ⟨c, heq, _, _, _⟩ := eatWhite_spec s
  rw [heq]

theorem eatWhite_t (s : SaxParser) : s.eatWhite.t = s.t := by
  obtain ⟨c, heq, _, _, _⟩ := eatWhite_spec s
  rw [heq]

theorem eatWhite_cursor_le (s : SaxParser) : s.cursor ≤ s.eatWhite.cursor := by
  obtain ⟨c, heq, hle, _, _⟩ := eatWhite_spec s
  rw [heq]
  exact hle

theorem eatWhite_lenRem_le (s : SaxParser) : lenRem s.eatWhite ≤ lenRem s := by
  have h1 := eatWhite_Input s
  have h2 := eatWhite_cursor_le s
  simp only [lenRem]
  rw [h1]
  omega

theorem eatWhite_mu_le (s : SaxParser) : mu s.eatWhite ≤ mu s := by
  have h1 := eatWhite_lenRem_le s
  have h2 : flagOf s.eatWhite = flagOf s := by
    unfold flagOf
    rw [eatWhite_t]
  unfold mu
  omega

theorem nextStep_inl (s s1 : SaxParser) (h : nextStep s = .inl s1) :
    s1.Input = s.Input ∧ lenRem s1 < lenRem s := by
  unfold nextStep at h
  obtain ⟨hI, hlt⟩ := nextStepAW_inl _ _ h
  rw [eatWhite_Input] at hI
  exact ⟨hI, Nat.lt_of_lt_of_le hlt (eatWhite_lenRem_le s)⟩

theorem mu_newline_advance (s : SaxParser) (n : Nat) (hn : 0 < n)
    (hclen : s.cursor < s.Input.length) :
    mu ({ s.advance n with t := SaxType.newLine } : SaxParser) < mu s := by
  have h1 : flagOf ({ s.advance n with t := SaxType.newLine } : SaxParser) = 1 := by
    unfold flagOf
    simp
  have h2 : 0 ≤ flagOf s := Nat.zero_le _
  unfold mu
  rw [h1]
  simp only [lenRem, SaxParser.advance]
  omega

theorem mu_content (s : SaxParser) (h : s.t = SaxType.newLine ∨ s.t = SaxType.failsafe) :
    mu ({ s with t := SaxType.tagName, text := bytes "content" } : SaxParser) < mu s := by
  have h1 : flagOf ({ s with t := SaxType.tagName, text := bytes "content" } : SaxParser) = 0 := by
    unfold flagOf
    simp
  have h2 : flagOf s = 1 := by
    unfold flagOf
    rw [if_pos h]
  unfold mu
  rw [h1, h2]
  simp only [lenRem]
  omega

theorem mu_eof_le (s : SaxParser) : mu ({ s with t := SaxType.eof } : SaxParser) ≤ mu s := by
  have h1 : flagOf ({ s with t := SaxType.eof } : SaxParser) = 0 := by
    unfold flagOf
    simp
  have h2 : 0 ≤ flagOf s := Nat.zero_le _
  unfold mu
  rw [h1]
  simp only [lenRem]
  omega

theorem nextStepAW_ok (s s' : SaxParser) (h : nextStepAW s = .inr (.ok s')) :
    s'.Input = s.Input ∧ mu s' ≤ mu s ∧ (s'.t ≠ SaxType.eof → mu s' < mu s) := by
  unfold nextStepAW at h
  by_cases h1 : s.eof = true
  · rw [if_pos h1] at h
    have h' := Except.ok.inj (Sum.inr.inj h)
    subst h'
    refine ⟨rfl, mu_eof_le s, ?_⟩
    intro hne
    exact absurd rfl hne
  · rw [if_neg h1] at h
    have hclen : s.cursor < s.Input.length := by
      simp [SaxParser.eof] at h1
      exact h1
    by_cases h2 : (s.peek 0 = 47 ∧ s.peek 1 = 47) ∨ (s.peek 0 = 45 ∧ s.peek 1 = 45) ∨ s.peek 0 = 35
    · rw [if_pos h2] at h
      exact Sum.noConfusion h
    · rw [if_neg h2] at h
      by_cases h3 : s.peek 0 = 10
      · rw [if_pos h3] at h
        have h' := Except.ok.inj (Sum.inr.inj h)
        subst h'
        have hmu := mu_newline_advance s 1 (by omega) hclen
        exact ⟨rfl, le_of_lt hmu, fun _ => hmu⟩
      · rw [if_neg h3] at h
        by_cases h4 : s.peek 0 = 13
        · rw [if_pos h4] at h
          split at h
          · exact Except.noConfusion (Sum.inr.inj h)
          · have h' := Except.ok.inj (Sum.inr.inj h)
            subst h'
            have hmu := mu_newline_advance s 2 (by omega) hclen
            exact ⟨rfl, le_of_lt hmu, fun _ => hmu⟩
        · rw [if_neg h4] at h
          by_cases h5 : s.peek 0 = 92 ∧ s.peek 1 = 10
          · rw [if_pos h5] at h
            exact Sum.noConfusion h
          · rw [if_neg h5] at h
            have hE := Sum.inr.inj h
            simp only [] at hE
            by_cases h6 : isIdentifierStart (s.peek 0) = true
            · rw [if_pos h6] at hE
              obtain ⟨hI, hc⟩ := nextIdentifier_ok s h6
              split at hE
              · split at hE
                · exact Except.noConfusion hE
                · have h' := Except.ok.inj hE
                  subst h'
                  have hmu : mu (s.nextIdentifier.advance 1) < mu s := by
                    apply mu_lt_of_cursor_lt
                    · simp [hI]
                    · simp
                      omega
                    · exact hclen
                  exact ⟨by simp [hI], le_of_lt hmu, fun _ => hmu⟩
              · have h' := Except.ok.inj hE
                subst h'
                have hmu : mu s.nextIdentifier < mu s := mu_lt_of_cursor_lt hI hc hclen
                exact ⟨hI, le_of_lt hmu, fun _ => hmu⟩
            · rw [if_neg h6] at hE
              by_cases h7 : s.peek 0 = 123
              · rw [if_pos h7] at hE
                have h' := Except.ok.inj hE
                subst h'
                have hmu : mu ({ s.advance 1 with t := SaxType.openTag, text := [123] } : SaxParser) < mu s := by
                  apply mu_lt_of_cursor_lt
                  · rfl
                  · simp
                  · exact hclen
                exact ⟨rfl, le_of_lt hmu, fun _ => hmu⟩
              · rw [if_neg h7] at hE
                by_cases h8 : s.peek 0 = 125
                · rw [if_pos h8] at hE
                  have h' := Except.ok.inj hE
                  subst h'
                  have hmu : mu ({ s.advance 1 with t := SaxType.closeTag, text := [125] } : SaxParser) < mu s := by
                    apply mu_lt_of_cursor_lt
                    · rfl
                    · simp
                    · exact hclen
                  exact ⟨rfl, le_of_lt hmu, fun _ => hmu⟩
                · rw [if_neg h8] at hE
                  by_cases h9 : s.t = SaxType.newLine ∨ s.t = SaxType.failsafe
                  · rw [if_pos h9] at hE
                    have h' := Except.ok.inj hE
                    subst h'
                    have hmu := mu_content s h9
                    exact ⟨rfl, le_of_lt hmu, fun _ => hmu⟩
                  · rw [if_neg h9] at hE
                    by_cases h10 : s.peek 0 = 34
                    · rw [if_pos h10] at hE
                      obtain ⟨hI, hc⟩ := nextDoubleQuotedString_ok s s' hE
                      have hmu : mu s' < mu s := mu_lt_of_cursor_lt hI hc hclen
                      exact ⟨hI, le_of_lt hmu, fun _ => hmu⟩
                    · rw [if_neg h10] at hE
                      by_cases h11 : s.peek 0 = 96
                      · rw [if_pos h11] at hE
                        obtain ⟨hI, hc⟩ := nextBacktickString_ok s s' hE
                        have hmu : mu s' < mu s := mu_lt_of_cursor_lt hI hc hclen
                        exact ⟨hI, le_of_lt hmu, fun _ => hmu⟩
                      · rw [if_neg h11] at hE
                        by_cases h12 : s.peek 0 = 91
                        · rw [if_pos h12] at hE
                          obtain ⟨hI, hc⟩ := nextBinary_ok s s' hE
                          have hmu : mu s' < mu s := mu_lt_of_cursor_lt hI hc hclen
                          exact ⟨hI, le_of_lt hmu, fun _ => hmu⟩
                        · rw [if_neg h12] at hE
                          by_cases h13 : isDigit (s.peek 0) = true ∨ s.peek 0 = 45
                          · rw [if_pos h13] at hE
                            obtain ⟨hI, hc⟩ := nextNumeric_ok s s' hclen h13 hE
                            have hmu : mu s' < mu s := mu_lt_of_cursor_lt hI hc hclen
                            exact ⟨hI, le_of_lt hmu, fun _ => hmu⟩
                          · rw [if_neg h13] at hE
                            exact Except.noConfusion hE

theorem nextStep_ok (s s' : SaxParser) (h : nextStep s = .inr (.ok s')) :
    s'.Input = s.Input ∧ mu s' ≤ mu s ∧ (s'.t ≠ SaxType.eof → mu s' < mu s) := by
  unfold nextStep at h
  obtain ⟨hI, hle, hstrict⟩ := nextStepAW_ok _ _ h
  have hmu := eatWhite_mu_le s
  rw [eatWhite_Input] at hI
  exact ⟨hI, le_trans hle hmu, fun hne => Nat.lt_of_lt_of_le (hstrict hne) hmu⟩

theorem nextF_ok_mu : ∀ (f : Nat) (s s' : SaxParser), nextF f s = .ok s' →
    s'.Input = s.Input ∧ mu s' ≤ mu s ∧ (s'.t ≠ SaxType.eof → mu s' < mu s) := by
  intro f
  induction f with
  | zero =>
    intro s s' h
    have h' := Except.ok.inj h
    subst h'
    exact ⟨rfl, mu_eof_le s, fun hne => absurd rfl hne⟩
  | succ f ih =>
    intro s s' h
    rw [nextF] at h
    split at h
    · rename_i s1 hstep
      obtain ⟨hI1, hlt1⟩ := nextStep_inl s s1 hstep
      have hmu1 : mu s1 < mu s := by
        have hf1 := flagOf_le_one s1
        have hf0 : 0 ≤ flagOf s := Nat.zero_le _
        unfold mu
        omega
      obtain ⟨hI2, hle2, _⟩ := ih s1 s' h
      refine ⟨hI2.trans hI1, by omega, fun _ => by omega⟩
    · rename_i r hstep
      subst h
      exact nextStep_ok s s' hstep

theorem Next_ok_mu (s s' : SaxParser) (h : s.Next = .ok s') :
    s'.Input = s.Input ∧ mu s' ≤ mu s ∧ (s'.t ≠ SaxType.eof → mu s' < mu s) := by
  exact nextF_ok_mu _ s s' h

/-- The tree-building loop never exhausts its fuel when given more than the
measure of the parser state: every token strictly decreases `mu`. -/
theorem parseLoop_ne_outOfFuel : ∀ (fuel : Nat) (p : SaxParser) (stack : List SdlTag)
    (b : Bool), mu p < fuel → parseLoop fuel p stack b ≠ .outOfFuel := by
  intro fuel
  induction fuel with
  | zero => intro p stack b h; omega
  | succ fuel ih =>
    intro p stack b h
    rw [parseLoop]
    cases hN : p.Next with
    | error e => simp
    | ok p1 =>
      simp only []
      obtain ⟨hI1, hle1, hstrict1⟩ := Next_ok_mu p p1 hN
      by_cases hEof : p1.IsEof = true
      · rw [if_pos hEof]
        cases stack.getLast? <;> simp
      · rw [if_neg hEof]
        have hne : p1.t ≠ SaxType.eof := by
          simp [SaxParser.IsEof] at hEof
          exact hEof
        have hmu1 : mu p1 < fuel := by
          have := hstrict1 hne
          omega
        by_cases hTag : p1.IsTagName = true
        · rw [if_pos hTag]
          split
          · simp
          · exact ih _ _ _ hmu1
        · rw [if_neg hTag]
          by_cases hAttr : p1.IsAttributeName = true
          · rw [if_pos hAttr]
            cases hN2 : p1.Next with
            | error e => simp
            | ok p2 =>
              obtain ⟨hI2, hle2, _⟩ := Next_ok_mu p1 p2 hN2
              simp only []
              cases hHV : handleValue p2 with
              | none => simp [hHV]
              | some v =>
                simp only []
                split
                · exact ih _ _ _ (by omega)
                · simp
          · rw [if_neg hAttr]
            by_cases hNL : p1.IsNewLine = true
            · rw [if_pos hNL]
              split
              · split
                · exact ih _ _ _ hmu1
                · simp
              · exact ih _ _ _ hmu1
            · rw [if_neg hNL]
              by_cases hOpen : p1.IsOpenTag = true
              · rw [if_pos hOpen]
                split
                · simp
                · cases hN2 : p1.Next with
                  | error e => simp
                  | ok p2 =>
                    obtain ⟨hI2, hle2, _⟩ := Next_ok_mu p1 p2 hN2
                    simp only []
                    split
                    · simp
                    · exact ih _ _ _ (by omega)
              · rw [if_neg hOpen]
                by_cases hClose : p1.IsCloseTag = true
                · rw [if_pos hClose]
                  split
                  · simp
                  · cases hN2 : p1.Next with
                    | error e => simp
                    | ok p2 =>
                      obtain ⟨hI2, hle2, _⟩ := Next_ok_mu p1 p2 hN2
                      simp only []
                      split
                      · simp
                      · split
                        · exact ih _ _ _ (by omega)
                        · simp
                · rw [if_neg hClose]
                  cases hHV : handleValue p1 with
                  | none => simp [hHV]
                  | some v =>
                    simp only []
                    split
                    · exact ih _ _ _ hmu1
                    · simp

theorem ParseIntoAst_ne_outOfFuel (p : SaxParser) : p.ParseIntoAst ≠ .outOfFuel := by
  unfold SaxParser.ParseIntoAst
  apply parseLoop_ne_outOfFuel
  have h1 := flagOf_le_one p
  unfold mu lenRem
  omega

theorem eatWhite_at_eof (s : SaxParser) (h : s.eof = true) : s.eatWhite = s := by
  unfold SaxParser.eatWhite
  rw [eatWhiteF]
  rw [if_neg]
  simp [h]

theorem Next_at_eof (s : SaxParser) (h : s.eof = true) :
    s.Next = .ok { s with t := SaxType.eof } := by
  have hstep : nextStep s = .inr (.ok { s with t := SaxType.eof }) := by
    unfold nextStep
    rw [eatWhite_at_eof s h]
    unfold nextStepAW
    rw [if_pos h]
  unfold SaxParser.Next
  rw [nextF]
  rw [hstep]

/-! ## Whitespace-only inputs -/

/-- Byte lists consisting only of spaces, tabs, and newline sequences
(a carriage return only immediately before a line feed). -/
def wsOnly : List Nat → Bool
  | [] => true
  | c :: r =>
    if c = 32 ∨ c = 9 ∨ c = 10 then wsOnly r
    else if c = 13 then decide (r.headD 0 = 10) && wsOnly r
    else false

theorem wsOnly_tail {l : List Nat} (h : wsOnly l = true) : wsOnly l.tail = true := by
  cases l with
  | nil => rfl
  | cons c r =>
    simp only [wsOnly] at h
    split at h
    · simpa using h
    · split at h
      · simp at h
        simpa using h.2
      · exact absurd h (by simp)

theorem wsOnly_head {x : Nat} {rest : List Nat} (h : wsOnly (x :: rest) = true) :
    ((x = 32 ∨ x = 9 ∨ x = 10) ∧ wsOnly rest = true) ∨
      (x = 13 ∧ ∃ r2, rest = 10 :: r2 ∧ wsOnly rest = true) := by
  simp only [wsOnly] at h
  split at h
  · exact Or.inl (by simp_all)
  · split at h
    · simp at h
      rename_i h13
      refine Or.inr ⟨h13, ?_⟩
      obtain ⟨hhead, hws⟩ := h
      cases rest with
      | nil => simp at hhead
      | cons y r2 =>
        simp at hhead
        subst hhead
        exact ⟨r2, rfl, hws⟩
    · exact absurd h (by simp)

theorem wsOnly_drop {l : List Nat} (h : wsOnly l = true) (n : Nat) :
    wsOnly (l.drop n) = true := by
  induction n generalizing l with
  | zero => simpa using h
  | succ n ih =>
    cases l with
    | nil => simpa using h
    | cons x xs =>
      have h1 := wsOnly_tail h
      simpa using ih h1

theorem getD_eq_headD_drop : ∀ (l : List Nat) (n : Nat), l.getD n 0 = (l.drop n).headD 0 := by
  intro l
  induction l with
  | nil => intro n; cases n <;> simp
  | cons x xs ih =>
    intro n
    cases n with
    | zero => simp
    | succ n => simpa using ih n

theorem peek_of_drop {s : SaxParser} {x : Nat} {rest : List Nat}
    (h : s.Input.drop s.cursor = x :: rest) : s.peek 0 = x ∧ s.cursor < s.Input.length := by
  have hlt : s.cursor < s.Input.length := by
    by_contra hc
    push_neg at hc
    rw [List.drop_eq_nil_of_le hc] at h
    exact List.noConfusion h
  refine ⟨?_, hlt⟩
  rw [peek_eq_getD (by omega), getD_eq_headD_drop]
  simp [Nat.add_zero, h]

theorem next_ws (s : SaxParser) (hws : wsOnly (s.Input.drop s.cursor) = true) :
    ∃ s', s.Next = .ok s' ∧ s'.Input = s.Input ∧
      wsOnly (s'.Input.drop s'.cursor) = true ∧
      (s'.t = SaxType.eof ∨ (s'.t = SaxType.newLine ∧ lenRem s' < lenRem s)) := by
  obtain ⟨c, heq, hle, hub, hstop⟩ := eatWhite_spec s
  have hwsc : wsOnly (s.Input.drop c) = true := by
    have h1 := wsOnly_drop hws (c - s.cursor)
    rw [List.drop_drop] at h1
    have h2 : s.cursor + (c - s.cursor) = c := by omega
    rwa [h2] at h1
  by_cases hceof : s.Input.length ≤ c
  · have hnext : s.Next = .ok ({ s with cursor := c, t := SaxType.eof } : SaxParser) := by
      unfold SaxParser.Next
      rw [nextF]
      unfold nextStep
      rw [heq]
      unfold nextStepAW
      rw [if_pos (by simp [SaxParser.eof]; omega)]
    exact ⟨_, hnext, rfl, hwsc, Or.inl rfl⟩
  · push_neg at hceof
    cases hcs : s.Input.drop c with
    | nil =>
      exfalso
      have hlen := congrArg List.length hcs
      simp at hlen
      omega
    | cons x rest =>
      have hpeek : ({ s with cursor := c } : SaxParser).peek 0 = x := by
        have h := @peek_of_drop ({ s with cursor := c }) x rest (by simpa using hcs)
        exact h.1
      rcases hstop with hstop | ⟨h32, h9⟩
      · exfalso
        rw [heq] at hstop
        simp [SaxParser.eof] at hstop
        omega
      · rw [heq] at h32 h9
        rcases wsOnly_head (hcs ▸ hwsc) with ⟨hx, hwsr⟩ | ⟨hx13, r2, hrest, hwsr⟩
        · have hx10 : x = 10 := by
            rcases hx with h | h | h
            · exact absurd (hpeek.trans h) h32
            · exact absurd (hpeek.trans h) h9
            · exact h
          subst hx10
          have hnext : s.Next = .ok ({ s with cursor := c + 1, t := SaxType.newLine } : SaxParser) := by
            unfold SaxParser.Next
            rw [nextF]
            unfold nextStep
            rw [heq]
            unfold nextStepAW
            rw [if_neg (by simp [SaxParser.eof]; omega)]
            rw [if_neg (by rw [hpeek]; simp)]
            rw [if_pos hpeek]
            rfl
          have hws2 : wsOnly (s.Input.drop (c + 1)) = true := by
            rw [← List.tail_drop, hcs]
            simpa using hwsr
          have hlr : s.Input.length - (c + 1) < s.Input.length - s.cursor := by omega
          exact ⟨_, hnext, rfl, hws2, Or.inr ⟨rfl, hlr⟩⟩
        · subst hx13
          subst hrest
          have hpeek1 : ({ s with cursor := c } : SaxParser).peek 1 = 10 := by
            have hlen2 : c + 1 < s.Input.length := by
              have hl := congrArg List.length hcs
              simp at hl
              omega
            have h := @peek_eq_getD ({ s with cursor := c }) 1 (by simpa using hlen2)
            rw [h]
            show s.Input.getD (c + 1) 0 = 10
            rw [getD_eq_headD_drop, ← List.tail_drop, hcs]
            simp
          have hnext : s.Next = .ok ({ s with cursor := c + 2, t := SaxType.newLine } : SaxParser) := by
            unfold SaxParser.Next
            rw [nextF]
            unfold nextStep
            rw [heq]
            unfold nextStepAW
            rw [if_neg (by simp [SaxParser.eof]; omega)]
            rw [if_neg (by rw [hpeek]; simp)]
            rw [if_neg (by rw [hpeek]; simp)]
            rw [if_pos hpeek]
            rw [if_neg (by rw [hpeek1]; simp)]
            rfl
          have hws2 : wsOnly (s.Input.drop (c + 2)) = true := by
            have hd2 : s.Input.drop (c + 2) = r2 := by
              rw [show c + 2 = c + 1 + 1 from rfl]
              rw [← List.tail_drop, ← List.tail_drop, hcs]
              rfl
            rw [hd2]
            exact wsOnly_tail hwsr
          have hlr : s.Input.length - (c + 2) < s.Input.length - s.cursor := by omega
          exact ⟨_, hnext, rfl, hws2, Or.inr ⟨rfl, hlr⟩⟩

theorem parseLoop_ws : ∀ (fuel : Nat) (s : SaxParser), lenRem s < fuel →
    wsOnly (s.Input.drop s.cursor) = true →
    parseLoop fuel s [emptyTag] true = .ok emptyTag := by
  intro fuel
  induction fuel with
  | zero => intro s h _; omega
  | succ fuel ih =>
    intro s h hws
    obtain ⟨s', hnext, hI, hws', hcase⟩ := next_ws s hws
    rw [parseLoop, hnext]
    simp only []
    rcases hcase with heof | ⟨hnl, hlt⟩
    · rw [if_pos (by simp [SaxParser.IsEof, heof])]
      rfl
    · rw [if_neg (by simp [SaxParser.IsEof, hnl])]
      rw [if_neg (by simp [SaxParser.IsTagName, hnl])]
      rw [if_neg (by simp [SaxParser.IsAttributeName, hnl])]
      rw [if_pos (by simp [SaxParser.IsNewLine, hnl])]
      rw [if_neg (by simp)]
      apply ih
      · omega
      · exact hws'

/-- In `nextTimeSpan`, a minus sign carried on the day component and the
leading-minus flag are merged with a logical OR and the magnitude is
negated exactly once: a duration whose day string parsed to `-d` under the
leading-minus flag equals the plain negation of the same duration with day
value `d` and no flag. The two signs are equivalent, not additive. -/
theorem timeSpanValue_signEquiv (d hh mm ss ns : Int) (hd0 : 0 ≤ d) (hd1 : d < 2 ^ 63) :
    timeSpanValue true (-d) hh mm ss ns = i64mul (timeSpanValue false d hh mm ss ns) (-1) := by
  have hdec : decide (d < 0) = false := by
    simp
    omega
  have hdd : -d * -1 = d := by ring
  have hw : wrap64 (-d * -1) = d := by
    rw [hdd]
    unfold wrap64
    have h64 : (2 : Int) ^ 64 = 18446744073709551616 := by norm_num
    have h63 : (2 : Int) ^ 63 = 9223372036854775808 := by norm_num
    rw [h64, h63]
    rw [h63] at hd1
    have hm : (d + 9223372036854775808).emod 18446744073709551616 = d + 9223372036854775808 :=
      Int.emod_eq_of_lt (by omega) (by omega)
    omega
  unfold timeSpanValue
  simp only [Bool.true_or, Bool.false_or, hdec, Bool.false_eq_true, if_false, if_true,
    eq_self_iff_true]
  unfold i64mul
  rw [hw]

/-! ## Helpers for stating the claims -/

def exceptIsOk {e a : Type} : Except e a → Bool
  | .ok _ => true
  | .error _ => false

/-- Iterate `Next` n times from a state (stopping at the first error). -/
def nextN : Nat → SaxParser → Except GoError SaxParser
  | 0, s => .ok s
  | n + 1, s =>
    match s.Next with
    | .ok s2 => nextN n s2
    | .error e => .error e

/-- The `text` of the token reached after n calls of `Next` on a fresh
parser over `input` (empty on error). -/
def tokTextAfter (n : Nat) (input : List Nat) : List Nat :=
  match nextN n (mkParser input) with
  | .ok s => s.text
  | .error _ => []

/-- ASCII whitespace characters (space, tab, line feed, vertical tab, form
feed, carriage return), the reading of "whitespace characters" in claim C9. -/
def isAsciiWhitespace (c : Nat) : Bool :=
  c = 32 ∨ c = 9 ∨ c = 10 ∨ c = 11 ∨ c = 12 ∨ c = 13

/-! ## The claims -/

/-- Claim C1 (code bug): the accessor `SdlValue.Float()` is guarded by
`!v.IsString()` instead of `!v.IsFloat()` in ast.go, so it returns an
error for a value that holds the Float64 variant and succeeds (returning
the default 0 payload) for a String-variant value - the exact opposite of
the claimed behaviour. -/
theorem float_accessor_misguards :
    (SdlValue.ofFloat 1.5).IsFloat = true ∧
    exceptIsOk (SdlValue.ofFloat 1.5).Float = false ∧
    (SdlValue.ofString (bytes "x")).IsFloat = false ∧
    exceptIsOk (SdlValue.ofString (bytes "x")).Float = true :=
  ⟨rfl, rfl, rfl, rfl⟩

/-- Claim C2 (code bug): on the input `true` the bare keyword is lexed as a
Bool token with only the root on the stack, and `ParseIntoAst` appends the
value to the root itself; the returned root carries a value, contradicting
the claim (and the doc comment of `ParseIntoAst`) that the root only ever
holds children. -/
theorem bare_true_line_adds_value_to_root :
    ((mkParser (bytes "true")).ParseIntoAst.isOkB,
     (mkParser (bytes "true")).ParseIntoAst.rootOr.Values.map SdlValue.tag,
     (mkParser (bytes "true")).ParseIntoAst.rootOr.Name,
     (mkParser (bytes "true")).ParseIntoAst.rootOr.Children.length) =
    (true, [SdlValueTag.tBool], [], 0) := by
  rfl

/-- Claim C3 (code bug): parsing `1111/12/01 11:22:33.456` stores the
3-digit fraction directly as the nanoseconds argument of `time.Date`, so
the resulting value carries 456 nanoseconds, not the claimed 456
milliseconds (456000000 nanoseconds). The duration path of the same lexer
multiplies its 3-digit fraction by `time.Millisecond`, showing the
intended unit. -/
theorem datetime_fraction_is_nanoseconds :
    ((mkParser (bytes "t 1111/12/01 11:22:33.456\n")).ParseIntoAst.rootOr.Children.headD
        emptyTag).Values.map (fun v => (v.tag, v.vDateTime)) =
      [(SdlValueTag.tDateTime, timeDate 1111 12 1 11 22 33 456)] ∧
    timeDate 1111 12 1 11 22 33 456 ≠ timeDate 1111 12 1 11 22 33 456000000 := by
  constructor
  · rfl
  · decide

/-- Claim C4 (code bug): `handleValue` decodes a Binary token with
`base64.NewDecoder(...).Read(v.vBinary)` where `v.vBinary` is still the
zero-value nil slice, so the read fills nothing and every Binary value is
empty; the non-empty base64 payload `QUJD` ("ABC") yields an empty byte
sequence, contradicting the claim. The tokenizer itself delivers the
whitespace-stripped payload text intact. -/
theorem binary_value_always_empty :
    tokTextAfter 2 (bytes "t [QU JD]\n") = bytes "QUJD" ∧
    ((mkParser (bytes "t [QUJD]\n")).ParseIntoAst.rootOr.Children.headD
        emptyTag).Values.map (fun v => (v.tag, v.vBinary)) =
      [(SdlValueTag.tBinary, [])] := by
  constructor
  · rfl
  · rfl

/-- Claim C5 (code bug): a lone close brace (and likewise a bare keyword
line followed by a newline) reaches the pop in `ParseIntoAst` with only
the root on the stack; the Go code indexes `currTagStack[len-2]` = index
-1 and panics with an out-of-range runtime error instead of returning a
tag or an error. -/
theorem lone_close_brace_panics :
    ((mkParser (bytes "\x7d")).ParseIntoAst.isPanicB,
     (mkParser (bytes "true\n")).ParseIntoAst.isPanicB) = (true, true) := by
  rfl

/-- Claim C6, counterexample: the input `a {\nb\n` opens tag `a` with a
brace block that is never closed; the parse returns without error, yet the
returned root has no children at all - tag `a` (with its child `b`) was
opened in the input but does not appear in the returned tree. -/
theorem unclosed_block_dropped_counterexample :
    (mkParser (bytes "a \x7b\nb\n")).ParseIntoAst.isOkB = true ∧
    (mkParser (bytes "a \x7b\nb\n")).ParseIntoAst.rootOr.Children = [] := by
  exact ⟨rfl, rfl⟩

/-- Claim C6, amended: when end of input is reached with an unclosed brace
block still on the stack, `ParseIntoAst` simply returns `stack[0]`; the
content of the open block is silently dropped. On `a {\nb\n` the parse
succeeds and the result is exactly the pristine empty root. -/
theorem unclosed_block_returns_bare_root :
    (mkParser (bytes "a \x7b\nb\n")).ParseIntoAst = .ok emptyTag := by
  rfl

/-- Claim C7: a full parse always terminates. The loop of `ParseIntoAst`
is run with fuel `2*|input|+2`, and the measure `2*lenRem + flag` (twice
the remaining bytes, plus one when the synthesized `content` TagName can
still fire without consuming input) strictly decreases at every token
(`Next_ok_mu`), every lexing branch advancing the cursor or reaching
end-of-input - including the duration backtracking (`nextTimeSpan_ok`) and
the non-consuming `content` branch - so the fuel bound is never reached. -/
theorem parse_terminates_within_fuel (p : SaxParser) : p.ParseIntoAst ≠ .outOfFuel :=
  ParseIntoAst_ne_outOfFuel p

/-- Claim C7, witness. -/
theorem parse_terminates_within_fuel_w :
    (mkParser (bytes "x \x7b\n 1 2 -3d:04:05:06.777 \n\x7d\n")).ParseIntoAst ≠ .outOfFuel :=
  parse_terminates_within_fuel (mkParser (bytes "x \x7b\n 1 2 -3d:04:05:06.777 \n\x7d\n"))

set_option maxRecDepth 20000 in
/-- Claim C8: the sign of a duration literal applies to the whole
magnitude, and a minus carried on the day component is equivalent to the
leading minus, not additive: the two flags are merged with a logical OR
and the magnitude is negated exactly once (`timeSpanValue_signEquiv`), and
the two concrete literals parse to the claimed negative values
(nanoseconds): -(55d+11h+22m+33s+444ms) and -(2m30s). -/
theorem duration_sign_semantics :
    (∀ d hh mm ss ns : Int, 0 ≤ d → d < 2 ^ 63 →
      timeSpanValue true (-d) hh mm ss ns = i64mul (timeSpanValue false d hh mm ss ns) (-1)) ∧
    ((mkParser (bytes "t -55d:11:22:33.444\n")).ParseIntoAst.rootOr.Children.headD
        emptyTag).Values.map (fun v => (v.tag, v.vTimeSpan)) =
      [(SdlValueTag.tTimeSpan, -4792953444000000)] ∧
    ((mkParser (bytes "t -00:02:30\n")).ParseIntoAst.rootOr.Children.headD
        emptyTag).Values.map (fun v => (v.tag, v.vTimeSpan)) =
      [(SdlValueTag.tTimeSpan, -150000000000)] := by
  refine ⟨fun d hh mm ss ns h0 h1 => timeSpanValue_signEquiv d hh mm ss ns h0 h1, ?_, ?_⟩
  · decide
  · decide

/-- Claim C8, witness. -/
theorem duration_sign_semantics_w :
    timeSpanValue true (-55) 11 22 33 444 = i64mul (timeSpanValue false 55 11 22 33 444) (-1) :=
  duration_sign_semantics.1 55 11 22 33 444 (by decide) (by decide)

/-- Claim C9, counterexample: a lone carriage return is a whitespace
character, yet parsing the input consisting of just `\r` fails (stray
`\r` without `\n` is a `MalformedNewline` error), so not every
whitespace-only input parses successfully. -/
theorem whitespace_cr_alone_fails :
    (bytes "\r" = [13] ∧ isAsciiWhitespace 13 = true) ∧
    (mkParser (bytes "\r")).ParseIntoAst.isErrB = true := by
  exact ⟨⟨rfl, rfl⟩, rfl⟩

/-- Claim C9, amended: every input consisting only of spaces, tabs and
newline sequences (`\n`, or `\r` immediately followed by `\n`) - including
the empty input - parses successfully to the pristine root: no children,
no values, no attributes. -/
theorem whitespace_only_parses_to_empty_root (input : List Nat)
    (h : wsOnly input = true) :
    (mkParser input).ParseIntoAst = .ok emptyTag := by
  unfold SaxParser.ParseIntoAst
  apply parseLoop_ws
  · show (mkParser input).Input.length - (mkParser input).cursor <
      2 * (mkParser input).Input.length + 2
    simp [mkParser]
    omega
  · simpa using h

/-- Claim C9, witness. -/
theorem whitespace_only_parses_to_empty_root_w :
    wsOnly (bytes " \t\n\r\n \n") = true ∧
    (mkParser (bytes " \t\n\r\n \n")).ParseIntoAst = .ok emptyTag :=
  ⟨by decide, whitespace_only_parses_to_empty_root (bytes " \t\n\r\n \n") (by decide)⟩

/-- Claim C10: once the cursor has reached end-of-input, `Next` merely
sets the token kind to `eof` and returns without error; the resulting
state again satisfies the hypothesis with an unchanged cursor and `Next`
on it returns the very same state, so every further call keeps reporting
end-of-input: advancing past end-of-input is idempotent. -/
theorem next_after_eof_idempotent (s : SaxParser) (h : s.eof = true) :
    s.Next = .ok { s with t := SaxType.eof } ∧
    ({ s with t := SaxType.eof } : SaxParser).IsEof = true ∧
    ({ s with t := SaxType.eof } : SaxParser).Next = .ok { s with t := SaxType.eof } := by
  refine ⟨Next_at_eof s h, by simp [SaxParser.IsEof], ?_⟩
  have h2 : ({ s with t := SaxType.eof } : SaxParser).eof = true := h
  exact Next_at_eof _ h2

/-- Claim C10, witness. -/
theorem next_after_eof_idempotent_w :
    ((mkParser (bytes " \t")).advance 2).eof = true ∧
    (((mkParser (bytes " \t")).advance 2).Next =
      .ok { (mkParser (bytes " \t")).advance 2 with t := SaxType.eof }) :=
  ⟨by decide, (next_after_eof_idempotent ((mkParser (bytes " \t")).advance 2) (by decide)).1⟩
